import Mathlib

/-!
# Work-Calculator: progress computation and entry management (`home.js`)

A shallow embedding of `src/home.js`.

Modelling conventions.

* A JavaScript string is a `List Char` (`Str`).  Only ASCII separators, digits, signs and the
  ECMAScript white-space set are ever inspected by the program.
* A JavaScript `Number` is a `JSNum`: a finite value (a rational, always one that an IEEE-754
  binary64 represents), `+Infinity`, `-Infinity` or `NaN`.  Every arithmetic result and every
  parsed literal is rounded by `roundDouble`: nearest binary64, ties to even, gradual
  underflow, overflow to infinity.  The sign of zero (never observable in this program) is not
  tracked.
* `localStorage` holds either nothing or the saved entry list; the JSON round trip of a list
  of string records is the identity.
* The two module-level targets, the four text inputs and the two modal flags make up the
  mutable state threaded through the handlers.
* `renderTable` only matters to the state through whether it completes: `createTableRow`
  writes the entry's strings into `innerHTML` and then dereferences the edit and delete
  buttons it expects to find, so it throws when an entry's text breaks the row markup.
  Whether the markup of an entry survives is decided by the browser's HTML parser and enters
  the model as the parameter `rowBuilds`.
-/

namespace WorkCalculator

/-- JavaScript strings, as sequences of characters. -/
abbrev Str := List Char

/-! ## Numbers -/

/-- JavaScript numbers: finite values, the two infinities and NaN. -/
inductive JSNum where
  | nan : JSNum
  | posInf : JSNum
  | negInf : JSNum
  | fin : ℚ → JSNum
  deriving DecidableEq

/-- The power of two `2 ^ e` for an integer exponent. -/
def pow2 (e : ℤ) : ℚ :=
  if 0 ≤ e then ((2 ^ e.toNat : ℕ) : ℚ) else 1 / ((2 ^ (-e).toNat : ℕ) : ℚ)

/-- Binary logarithm of a natural number by repeated halving, at most `fuel` times. -/
def log2Fuel : ℕ → ℕ → ℕ
  | 0, _ => 0
  | fuel + 1, n => if n < 2 then 0 else log2Fuel fuel (n / 2) + 1

/-- Floor of the binary logarithm of a positive natural number. -/
def natLog2 (n : ℕ) : ℕ := log2Fuel n n

/-- Floor of the binary logarithm of the absolute value of a non-zero rational. -/
def floorLog2 (q : ℚ) : ℤ :=
  let e0 : ℤ := (natLog2 q.num.natAbs : ℤ) - (natLog2 q.den : ℤ)
  if pow2 e0 ≤ |q| then e0 else e0 - 1

/-- Nearest integer, ties to the even one. -/
def roundHalfEven (x : ℚ) : ℤ :=
  if x - ⌊x⌋ < 1 / 2 then ⌊x⌋
  else if 1 / 2 < x - ⌊x⌋ then ⌊x⌋ + 1
  else if ⌊x⌋ % 2 = 0 then ⌊x⌋ else ⌊x⌋ + 1

/-- Exponent of the unit in the last place of the binary64 values around `q`: 52 below the
binary exponent of `q`, and never below that of the subnormal range. -/
def ulpExponent (q : ℚ) : ℤ := max (floorLog2 q) (-1022) - 52

/-- The multiple of the unit in the last place nearest to `q`, ties to even. -/
def roundedValue (q : ℚ) : ℚ :=
  (roundHalfEven (q / pow2 (ulpExponent q)) : ℚ) * pow2 (ulpExponent q)

/-- The Number value for a real number: the nearest binary64, ties to even, with overflow
to the infinity of the same sign. -/
def roundDouble (q : ℚ) : JSNum :=
  if q = 0 then JSNum.fin 0
  else if pow2 1024 ≤ |roundedValue q| then (if q < 0 then JSNum.negInf else JSNum.posInf)
  else JSNum.fin (roundedValue q)

namespace JSNum

/-- Truthiness test used by `x || 0`: NaN and zero are falsy. -/
def falsy : JSNum → Bool
  | nan => true
  | fin q => decide (q = 0)
  | _ => false

/-- The expression `x || 0`. -/
def orZero (x : JSNum) : JSNum := if x.falsy then fin 0 else x

/-- Strict equality `x === y` on numbers: NaN equals nothing. -/
def strictEq (x y : JSNum) : Bool :=
  match x, y with
  | nan, _ => false
  | _, nan => false
  | a, b => decide (a = b)

/-- The infinity of the given sign. -/
def infOfSign (negative : Bool) : JSNum := if negative then negInf else posInf

/-- Number addition `x + y`. -/
def add : JSNum → JSNum → JSNum
  | nan, _ => nan
  | _, nan => nan
  | posInf, negInf => nan
  | negInf, posInf => nan
  | posInf, _ => posInf
  | _, posInf => posInf
  | negInf, _ => negInf
  | _, negInf => negInf
  | fin a, fin b => roundDouble (a + b)

/-- Number multiplication `x * y`. -/
def mul : JSNum → JSNum → JSNum
  | nan, _ => nan
  | _, nan => nan
  | posInf, posInf => posInf
  | posInf, negInf => negInf
  | negInf, posInf => negInf
  | negInf, negInf => posInf
  | posInf, fin b => if b = 0 then nan else infOfSign (decide (b < 0))
  | negInf, fin b => if b = 0 then nan else infOfSign (decide (0 < b))
  | fin a, posInf => if a = 0 then nan else infOfSign (decide (a < 0))
  | fin a, negInf => if a = 0 then nan else infOfSign (decide (0 < a))
  | fin a, fin b => roundDouble (a * b)

/-- Number division `x / y`. -/
def div : JSNum → JSNum → JSNum
  | nan, _ => nan
  | _, nan => nan
  | posInf, posInf => nan
  | posInf, negInf => nan
  | negInf, posInf => nan
  | negInf, negInf => nan
  | posInf, fin b => infOfSign (decide (b < 0))
  | negInf, fin b => infOfSign (decide (0 ≤ b))
  | fin _, posInf => fin 0
  | fin _, negInf => fin 0
  | fin a, fin b =>
    if b = 0 then (if a = 0 then nan else infOfSign (decide (a < 0)))
    else roundDouble (a / b)

/-- The function `Math.round`: nearest integer, ties towards `+Infinity`. -/
def round : JSNum → JSNum
  | fin q => fin (⌊q + 1 / 2⌋ : ℤ)
  | x => x

/-- The function `Math.min` on two arguments. -/
def min : JSNum → JSNum → JSNum
  | nan, _ => nan
  | _, nan => nan
  | negInf, _ => negInf
  | _, negInf => negInf
  | posInf, y => y
  | x, posInf => x
  | fin a, fin b => fin (Min.min a b)

end JSNum

/-! ## Characters and white space -/

/-- ECMAScript `WhiteSpace` and `LineTerminator` code points (what `trim` and the numeric
parsers skip). -/
def isWhiteSpace (c : Char) : Bool :=
  let n := c.toNat
  n = 0x09 || n = 0x0A || n = 0x0B || n = 0x0C || n = 0x0D || n = 0x20 || n = 0xA0 ||
  n = 0x1680 || (0x2000 ≤ n && n ≤ 0x200A) || n = 0x2028 || n = 0x2029 || n = 0x202F ||
  n = 0x205F || n = 0x3000 || n = 0xFEFF

/-- The method `String.prototype.trim`. -/
def trim (s : Str) : Str :=
  ((s.dropWhile isWhiteSpace).reverse.dropWhile isWhiteSpace).reverse

/-- The method `String.prototype.includes` for a literal needle. -/
def includes (s needle : Str) : Bool :=
  s.tails.any (fun t => needle.isPrefixOf t)

/-- The method `String.prototype.split` with a one-character separator. -/
def split (sep : Char) : Str → List Str
  | [] => [[]]
  | c :: cs =>
    if c = sep then [] :: split sep cs
    else
      match split sep cs with
      | [] => [[c]]
      | p :: ps => (c :: p) :: ps

/-! ## `parseInt` and `parseFloat` -/

/-- Value of a character as a digit in some radix up to 36, if it is one. -/
def digitValue (c : Char) : Option ℕ :=
  let n := c.toNat
  if 48 ≤ n ∧ n ≤ 57 then some (n - 48)
  else if 97 ≤ n ∧ n ≤ 122 then some (n - 87)
  else if 65 ≤ n ∧ n ≤ 90 then some (n - 55)
  else none

/-- Whether `c` is a digit of radix `R`. -/
def isRadixDigit (R : ℕ) (c : Char) : Bool :=
  match digitValue c with
  | some d => decide (d < R)
  | none => false

/-- Mathematical value of a digit string in radix `R`. -/
def radixValue (R : ℕ) (Z : Str) : ℕ :=
  Z.foldl (fun acc c => acc * R + (digitValue c).getD 0) 0

/-- Whether the first two characters are `0x` or `0X`. -/
def hasHexMarker : Str → Bool
  | '0' :: c :: _ => c = 'x' || c = 'X'
  | _ => false

/-- The global `parseInt(string)` with no radix argument: leading white space is skipped, a
sign is read, `0x`/`0X` selects radix 16, the longest run of digits is taken, and the signed
value is converted to a Number; NaN when there is no digit. -/
def parseInt (string : Str) : JSNum :=
  let S := string.dropWhile isWhiteSpace
  let sign : ℤ := if S.head? = some '-' then -1 else 1
  let S1 := if S.head? = some '+' ∨ S.head? = some '-' then S.tail else S
  let R : ℕ := if hasHexMarker S1 then 16 else 10
  let S2 := if hasHexMarker S1 then S1.drop 2 else S1
  let Z := S2.takeWhile (isRadixDigit R)
  if Z = [] then JSNum.nan else roundDouble ((sign * (radixValue R Z : ℤ) : ℤ) : ℚ)

/-- Decimal digit test. -/
def isDecimalDigit (c : Char) : Bool := decide (48 ≤ c.toNat) && decide (c.toNat ≤ 57)

/-- The exponent part `e[+-]digits` at the front of `s`, or 0 when there is none. -/
def parseExponent (s : Str) : ℤ :=
  match s with
  | [] => 0
  | c :: r =>
    if c = 'e' ∨ c = 'E' then
      match r with
      | '+' :: r1 =>
        if (r1.takeWhile isDecimalDigit) = [] then 0
        else (radixValue 10 (r1.takeWhile isDecimalDigit) : ℤ)
      | '-' :: r1 =>
        if (r1.takeWhile isDecimalDigit) = [] then 0
        else -(radixValue 10 (r1.takeWhile isDecimalDigit) : ℤ)
      | _ =>
        if (r.takeWhile isDecimalDigit) = [] then 0
        else (radixValue 10 (r.takeWhile isDecimalDigit) : ℤ)
    else 0

/-- Mathematical value of the longest prefix of `s` that is an unsigned decimal literal
(digits, optional fraction, optional exponent), or `none` when no prefix is one. -/
def parseUnsignedDecimal (s : Str) : Option ℚ :=
  let intDigits := s.takeWhile isDecimalDigit
  let rest := s.dropWhile isDecimalDigit
  match rest with
  | '.' :: r =>
    let fracDigits := r.takeWhile isDecimalDigit
    if intDigits = [] ∧ fracDigits = [] then none
    else
      some (((radixValue 10 intDigits : ℚ) +
          (radixValue 10 fracDigits : ℚ) / (10 : ℚ) ^ fracDigits.length) *
        (10 : ℚ) ^ parseExponent (r.dropWhile isDecimalDigit))
  | _ =>
    if intDigits = [] then none
    else some ((radixValue 10 intDigits : ℚ) * (10 : ℚ) ^ parseExponent rest)

/-- The global `parseFloat(string)`. -/
def parseFloat (string : Str) : JSNum :=
  let trimmed := string.dropWhile isWhiteSpace
  let negative : Bool := decide (trimmed.head? = some '-')
  let body := if trimmed.head? = some '+' ∨ trimmed.head? = some '-' then trimmed.tail
    else trimmed
  if "Infinity".toList.isPrefixOf body then JSNum.infOfSign negative
  else
    match parseUnsignedDecimal body with
    | none => JSNum.nan
    | some q => roundDouble (if negative then -q else q)

/-! ## Time parsing and percentage -/

/-- Characters replaced by `normalizeTimeFormat`: full stop, slash and hyphen. -/
def isAltSeparator (c : Char) : Bool := c = '.' || c = '/' || c = '-'

/-- Characters tested for by `calculatePercentage`: colon, full stop, slash and hyphen. -/
def isSeparator (c : Char) : Bool := c = ':' || c = '.' || c = '/' || c = '-'

/-- `normalizeTimeFormat(timeStr)`: every `.`, `/`, `-` becomes `:`. -/
def normalizeTimeFormat (timeStr : Str) : Str :=
  if timeStr = [] then timeStr
  else timeStr.map (fun c => if isAltSeparator c then ':' else c)

/-- `timeToSeconds(timeStr)`. -/
def timeToSeconds (timeStr : Str) : JSNum :=
  if timeStr = [] then JSNum.fin 0
  else
    let normalized := normalizeTimeFormat timeStr
    let parts := (split ':' normalized).map (fun p => (parseInt p).orZero)
    match parts with
    | [h, m, s] =>
      JSNum.add (JSNum.add (JSNum.mul h (JSNum.fin 3600)) (JSNum.mul m (JSNum.fin 60))) s
    | [m, s] => JSNum.add (JSNum.mul m (JSNum.fin 60)) s
    | [s] => s
    | _ => JSNum.fin 0

/-- `calculatePercentage(completed, total)` for string arguments. -/
def calculatePercentage (completed total : Str) : JSNum :=
  if total.any isSeparator then
    let totalSeconds := timeToSeconds total
    let completedSeconds := timeToSeconds completed
    if JSNum.strictEq totalSeconds (JSNum.fin 0) then JSNum.fin 0
    else
      let percentage := JSNum.mul (JSNum.div completedSeconds totalSeconds) (JSNum.fin 100)
      JSNum.min (JSNum.round percentage) (JSNum.fin 100)
  else
    let totalNum := (parseFloat total).orZero
    let completedNum := (parseFloat completed).orZero
    if JSNum.strictEq totalNum (JSNum.fin 0) then JSNum.fin 0
    else
      let percentage := JSNum.mul (JSNum.div completedNum totalNum) (JSNum.fin 100)
      JSNum.min (JSNum.round percentage) (JSNum.fin 100)

/-! ## Entries, storage and handler state -/

/-- One tracked series, as stored. -/
structure Entry where
  link : Str
  title : Str
  total : Str
  completed : Str
  deriving DecidableEq

/-- Mutable state seen by the handlers: the stored list (absent before the first save), the
two pending targets, the form inputs and the modal flags. -/
structure State where
  storage : Option (List Entry)
  deleteTargetIndex : Option ℕ
  editTargetIndex : Option ℕ
  videoLinkInput : Str
  videoTitleInput : Str
  totalCountInput : Str
  editInput : Str
  editModalActive : Bool
  deleteModalActive : Bool
  deriving DecidableEq

/-- How a handler run ended: normally, after an `alert`, or by an uncaught `TypeError`. -/
inductive Outcome where
  | done : Outcome
  | alerted : Outcome
  | typeError : Outcome
  deriving DecidableEq

/-- `loadData()`: the saved list, or the empty list when nothing was saved. -/
def loadData (s : State) : List Entry :=
  match s.storage with
  | some data => data
  | none => []

/-- `saveData(data)`. -/
def saveData (data : List Entry) (s : State) : State := { s with storage := some data }

/-- Statistics written by `updateStats`. -/
structure Stats where
  totalEntries : ℕ
  avgProgress : JSNum
  completedCount : ℕ
  deriving DecidableEq

/-- The `forEach` body of `updateStats`: accumulates `(totalProgress, completedItems)`. -/
def statsStep (acc : JSNum × ℕ) (entry : Entry) : JSNum × ℕ :=
  let percentage := calculatePercentage entry.completed entry.total
  (JSNum.add acc.1 percentage,
    if JSNum.strictEq percentage (JSNum.fin 100) then acc.2 + 1 else acc.2)

/-- `updateStats()` on the loaded list: `none` when the list is empty (the section is hidden
and nothing is written), otherwise the three displayed numbers. -/
def updateStats (data : List Entry) : Option Stats :=
  if data.length = 0 then none
  else
    let acc := data.foldl statsStep (JSNum.fin 0, 0)
    let avgProgress :=
      if data.length > 0 then
        JSNum.round (JSNum.div acc.1 (roundDouble (data.length : ℚ)))
      else JSNum.fin 0
    some { totalEntries := data.length, avgProgress := avgProgress, completedCount := acc.2 }

/-- Whether `renderTable()` completes: `createTableRow` is run for every stored entry in
order and throws a `TypeError` for the first entry whose row markup does not build. -/
def renderTable (rowBuilds : Entry → Bool) (data : List Entry) : Bool := data.all rowBuilds

/-- `closeEditModal()`. -/
def closeEditModal (s : State) : State := { s with editModalActive := false, editInput := [] }

/-- `closeDeleteModal()`. -/
def closeDeleteModal (s : State) : State := { s with deleteModalActive := false }

/-- `handleEditClick(e)` for the row with `data-index = index`. -/
def handleEditClick (index : ℕ) (s : State) : Outcome × State :=
  let s1 := { s with editTargetIndex := some index }
  match (loadData s1)[index]? with
  | none => (Outcome.typeError, s1)
  | some entry =>
    (Outcome.done,
      { s1 with
        editInput := if entry.completed = [] then ['0'] else entry.completed
        editModalActive := true })

/-- `confirmEdit()`: the target is reset only after `renderTable()` has completed. -/
def confirmEdit (rowBuilds : Entry → Bool) (s : State) : Outcome × State :=
  match s.editTargetIndex with
  | none => (Outcome.done, s)
  | some i =>
    let newValue := trim s.editInput
    if newValue = [] then (Outcome.alerted, s)
    else
      let data := loadData s
      match data[i]? with
      | none => (Outcome.typeError, s)
      | some entry =>
        let data1 := data.set i { entry with completed := newValue }
        let s1 := closeEditModal (saveData data1 s)
        if renderTable rowBuilds data1 then (Outcome.done, { s1 with editTargetIndex := none })
        else (Outcome.typeError, s1)

/-- `handleDeleteClick(e)` for the row with `data-index = index`. -/
def handleDeleteClick (index : ℕ) (s : State) : State :=
  { s with deleteTargetIndex := some index, deleteModalActive := true }

/-- `confirmDeletion()`: the target is reset only after `renderTable()` has completed. -/
def confirmDeletion (rowBuilds : Entry → Bool) (s : State) : Outcome × State :=
  match s.deleteTargetIndex with
  | none => (Outcome.done, s)
  | some i =>
    let data := (loadData s).eraseIdx i
    let s1 := closeDeleteModal (saveData data s)
    if renderTable rowBuilds data then (Outcome.done, { s1 with deleteTargetIndex := none })
    else (Outcome.typeError, s1)

/-- `handleAdd()`. -/
def handleAdd (rowBuilds : Entry → Bool) (s : State) : Outcome × State :=
  let link := trim s.videoLinkInput
  let title := trim s.videoTitleInput
  let total := trim s.totalCountInput
  if link = [] ∨ title = [] ∨ total = [] then (Outcome.alerted, s)
  else if !includes link "youtube.com".toList && !includes link "youtu.be".toList then
    (Outcome.alerted, s)
  else
    let newEntry : Entry := { link := link, title := title, total := total, completed := ['0'] }
    let data := loadData s ++ [newEntry]
    let s1 := saveData data s
    let s2 := { s1 with videoLinkInput := [], videoTitleInput := [], totalCountInput := [] }
    if renderTable rowBuilds data then (Outcome.done, s2) else (Outcome.typeError, s2)

/-! ## Boundary operations

The user types into the inputs and then triggers a handler. -/

/-- Typing the three fields of the add form. -/
def fillAddForm (link title total : Str) (s : State) : State :=
  { s with videoLinkInput := link, videoTitleInput := title, totalCountInput := total }

/-- Typing a value into the edit input. -/
def typeEdit (v : Str) (s : State) : State := { s with editInput := v }

/-- Operations accepted from the boundary. -/
inductive Op where
  | add (link title total : Str) : Op
  | beginEdit (i : ℕ) : Op
  | confirmEdit (v : Str) : Op
  | cancelEdit : Op
  | beginDelete (i : ℕ) : Op
  | confirmDelete : Op
  | cancelDelete : Op
  deriving DecidableEq

/-- Outcome and state after one boundary operation. -/
def stepOutcome (rowBuilds : Entry → Bool) (s : State) : Op → Outcome × State
  | Op.add link title total => handleAdd rowBuilds (fillAddForm link title total s)
  | Op.beginEdit i => handleEditClick i s
  | Op.confirmEdit v => confirmEdit rowBuilds (typeEdit v s)
  | Op.cancelEdit => (Outcome.done, closeEditModal s)
  | Op.beginDelete i => (Outcome.done, handleDeleteClick i s)
  | Op.confirmDelete => confirmDeletion rowBuilds s
  | Op.cancelDelete => (Outcome.done, closeDeleteModal s)

/-- State after one boundary operation. -/
def step (rowBuilds : Entry → Bool) (s : State) (op : Op) : State :=
  (stepOutcome rowBuilds s op).2

/-- State after a sequence of boundary operations. -/
def run (rowBuilds : Entry → Bool) (s : State) (ops : List Op) : State :=
  ops.foldl (step rowBuilds) s

/-- A `beginEdit i` / `beginDelete i` is enabled when `i` is an index of the list stored at
that moment; every other operation is always enabled. -/
def Enabled (s : State) : Op → Prop
  | Op.beginEdit i => i < (loadData s).length
  | Op.beginDelete i => i < (loadData s).length
  | _ => True

/-- Every operation of the sequence is enabled in the state it is issued in. -/
def Admissible (rowBuilds : Entry → Bool) : State → List Op → Prop
  | _, [] => True
  | s, op :: ops => Enabled s op ∧ Admissible rowBuilds (step rowBuilds s op) ops

/-- Every `confirmDelete` of the sequence ran to its end, that is, the table re-rendered
without a `TypeError`. -/
def DeletesComplete (rowBuilds : Entry → Bool) : State → List Op → Prop
  | _, [] => True
  | s, Op.confirmDelete :: ops =>
    (stepOutcome rowBuilds s Op.confirmDelete).1 = Outcome.done ∧
      DeletesComplete rowBuilds (step rowBuilds s Op.confirmDelete) ops
  | s, op :: ops => DeletesComplete rowBuilds (step rowBuilds s op) ops

/-- A pending target is unset or an index of the stored list. -/
def TargetValid (target : Option ℕ) (s : State) : Prop :=
  ∀ i, target = some i → i < (loadData s).length

/-- Page-load state: both targets unset. -/
def Initial (s : State) : Prop := s.deleteTargetIndex = none ∧ s.editTargetIndex = none

/-! ## Sample data -/

/-- A state right after page load with the given stored list. -/
def pageLoad (data : List Entry) : State :=
  { storage := some data, deleteTargetIndex := none, editTargetIndex := none,
    videoLinkInput := [], videoTitleInput := [], totalCountInput := [], editInput := [],
    editModalActive := false, deleteModalActive := false }

/-- A finished count-shaped entry (10 of 10). -/
def entryDone : Entry :=
  { link := "https://youtu.be/a".toList, title := "A".toList, total := "10".toList,
    completed := "10".toList }

/-- A half-finished count-shaped entry (5 of 10). -/
def entryHalf : Entry :=
  { link := "https://youtu.be/b".toList, title := "B".toList, total := "10".toList,
    completed := "5".toList }

/-- A fresh duration-shaped entry (0 of 1:00:00). -/
def entryFresh : Entry :=
  { link := "https://youtu.be/c".toList, title := "C".toList, total := "1:00:00".toList,
    completed := "0".toList }

/-- An entry whose completed amount reads as a large negative number (-1e17 of 1). -/
def entryNegative : Entry :=
  { link := "https://youtu.be/n".toList, title := "N".toList, total := "1".toList,
    completed := "-1e17".toList }

/-- A finished entry (1 of 1). -/
def entryOne : Entry :=
  { link := "https://youtu.be/o".toList, title := "O".toList, total := "1".toList,
    completed := "1".toList }

/-- An entry whose title opens a `textarea` element, so that the rest of its row markup,
buttons included, becomes text. -/
def entryBroken : Entry :=
  { link := "https://youtu.be/x".toList, title := "<textarea>".toList, total := "10".toList,
    completed := "0".toList }

/-- Three stored entries with percentages 100, 50 and 0. -/
def sampleData : List Entry := [entryDone, entryHalf, entryFresh]

/-- Every row builds: no stored text breaks the row markup. -/
def allRowsBuild : Entry → Bool := fun _ => true

/-! ## Reference readings taken from the specification -/

/-- The text cut at every occurrence of any of the four separators. -/
def cutAtSeparators : Str → List Str
  | [] => [[]]
  | c :: cs =>
    if isSeparator c then [] :: cutAtSeparators cs
    else
      match cutAtSeparators cs with
      | [] => [[c]]
      | p :: ps => (c :: p) :: ps

/-- Decimal value of a string of decimal digits. -/
def decimalValue (s : Str) : ℕ := s.foldl (fun acc c => 10 * acc + (c.toNat - 48)) 0

/-- Numeric value of a part as the specification words it: the decimal value of a part made
of decimal digits, and 0 for a part that is empty or not numeric. -/
def specPartValue (p : Str) : ℕ := if p.all isDecimalDigit then decimalValue p else 0

/-- The part as the code reads it: `parseInt(p) || 0`. -/
def readPart (p : Str) : JSNum := (parseInt p).orZero

/-- A number that is a non-negative integer or `+Infinity`. -/
def IsCount (x : JSNum) : Prop := x = JSNum.posInf ∨ ∃ n : ℕ, x = JSNum.fin (n : ℚ)

/-- A finite natural number of at most `2 ^ e`. -/
def CountBelow (e : ℤ) (x : JSNum) : Prop := ∃ n : ℕ, x = JSNum.fin (n : ℚ) ∧ (n : ℚ) ≤ pow2 e

/-- A number that is `+Infinity` or finite and not negative. -/
def NonNegative (x : JSNum) : Prop := x = JSNum.posInf ∨ ∃ q : ℚ, 0 ≤ q ∧ x = JSNum.fin q

/-- Whether `total` contains one of the four separator characters. -/
def DurationShaped (total : Str) : Prop := ':' ∈ total ∨ '.' ∈ total ∨ '/' ∈ total ∨ '-' ∈ total

instance (total : Str) : Decidable (DurationShaped total) := by
  unfold DurationShaped
  infer_instance

/-- The measure of `total`: seconds for a duration-shaped total, otherwise the number
`parseFloat` reads, with NaN read as 0. -/
def totalMeasure (total : Str) : JSNum :=
  if DurationShaped total then timeToSeconds total else (parseFloat total).orZero

/-- The measure of `completed`, in the shape family decided by `total`. -/
def completedMeasure (completed total : Str) : JSNum :=
  if DurationShaped total then timeToSeconds completed else (parseFloat completed).orZero

/-- The percentage of two measures as the code computes it: 0 for a zero total, otherwise the
double quotient times 100 in double arithmetic, rounded half up and capped at 100. -/
def percentOf (c t : JSNum) : JSNum :=
  if JSNum.strictEq t (JSNum.fin 0) then JSNum.fin 0
  else JSNum.min (JSNum.round (JSNum.mul (JSNum.div c t) (JSNum.fin 100))) (JSNum.fin 100)

/-- The percentage in exact arithmetic: 0 for a zero total, otherwise the quotient times 100
rounded half up and capped at 100. -/
def exactPercent (c t : ℚ) : ℤ := if t = 0 then 0 else Min.min ⌊c / t * 100 + 1 / 2⌋ 100

/-- Percentage of one entry. -/
def entryPercent (e : Entry) : JSNum := calculatePercentage e.completed e.total

/-- Sum of a list of numbers, added left to right in double arithmetic. -/
def doubleSum (xs : List JSNum) : JSNum := xs.foldl JSNum.add (JSNum.fin 0)

/-- Number of entries whose percentage is exactly 100. -/
def countComplete (E : List Entry) : ℕ :=
  E.countP (fun e => decide (entryPercent e = JSNum.fin 100))

/-! ## Rounding to binary64 -/

theorem pow2_eq_zpow (e : ℤ) : pow2 e = (2 : ℚ) ^ e := by
  unfold pow2
  split_ifs with h
  · obtain ⟨n, rfl⟩ := Int.eq_ofNat_of_zero_le h
    simp
  · push_neg at h
    obtain ⟨n, hn⟩ := Int.eq_ofNat_of_zero_le (by omega : 0 ≤ -e)
    have he : e = -(n : ℤ) := by omega
    subst he
    simp

theorem pow2_pos (e : ℤ) : 0 < pow2 e := by
  rw [pow2_eq_zpow]
  positivity

theorem pow2_add (a b : ℤ) : pow2 (a + b) = pow2 a * pow2 b := by
  simp only [pow2_eq_zpow]
  exact zpow_add₀ (by norm_num) a b

theorem pow2_le_pow2 {a b : ℤ} (h : a ≤ b) : pow2 a ≤ pow2 b := by
  simp only [pow2_eq_zpow]
  exact zpow_le_zpow_right₀ (by norm_num) h

theorem pow2_lt_pow2 {a b : ℤ} (h : a < b) : pow2 a < pow2 b := by
  simp only [pow2_eq_zpow]
  exact zpow_lt_zpow_right₀ (by norm_num) h

theorem pow2_natCast (n : ℕ) : pow2 (n : ℤ) = ((2 ^ n : ℕ) : ℚ) := by
  rw [pow2_eq_zpow]
  simp

theorem log2Fuel_spec (fuel : ℕ) :
    ∀ n, n ≤ fuel → n ≠ 0 → 2 ^ log2Fuel fuel n ≤ n ∧ n < 2 ^ (log2Fuel fuel n + 1) := by
  induction fuel with
  | zero =>
    intro n hn h0
    omega
  | succ fuel ih =>
    intro n hn h0
    unfold log2Fuel
    split_ifs with h2
    · simp
      omega
    · have hdiv : n / 2 ≤ fuel := by omega
      have hne : n / 2 ≠ 0 := by omega
      obtain ⟨h1, h3⟩ := ih (n / 2) hdiv hne
      rw [pow_succ] at h3
      constructor
      · rw [pow_succ]
        omega
      · rw [pow_succ, pow_succ]
        omega

theorem natLog2_spec (n : ℕ) (h : n ≠ 0) : 2 ^ natLog2 n ≤ n ∧ n < 2 ^ (natLog2 n + 1) :=
  log2Fuel_spec n n (le_refl n) h

theorem abs_eq_natAbs_div_den (q : ℚ) : |q| = (q.num.natAbs : ℚ) / (q.den : ℚ) := by
  have h := Rat.num_div_den q
  conv_lhs => rw [← h]
  rw [abs_div, Nat.abs_cast]
  congr 1
  rw [← Int.cast_abs, Int.abs_eq_natAbs]
  exact Int.cast_natCast _

theorem floorLog2_spec (q : ℚ) (hq : q ≠ 0) :
    pow2 (floorLog2 q) ≤ |q| ∧ |q| < pow2 (floorLog2 q + 1) := by
  have hn : q.num.natAbs ≠ 0 := by
    simpa using hq
  have hd : q.den ≠ 0 := q.den_nz
  obtain ⟨hn1, hn2⟩ := natLog2_spec _ hn
  obtain ⟨hd1, hd2⟩ := natLog2_spec _ hd
  have habs := abs_eq_natAbs_div_den q
  have hdpos : (0 : ℚ) < (q.den : ℚ) := by exact_mod_cast Nat.pos_of_ne_zero hd
  have hn1q : pow2 (natLog2 q.num.natAbs : ℤ) ≤ (q.num.natAbs : ℚ) := by
    rw [pow2_natCast]
    exact_mod_cast hn1
  have hn2q : (q.num.natAbs : ℚ) < pow2 ((natLog2 q.num.natAbs : ℤ) + 1) := by
    have : ((natLog2 q.num.natAbs : ℤ) + 1) = ((natLog2 q.num.natAbs + 1 : ℕ) : ℤ) := by simp
    rw [this, pow2_natCast]
    exact_mod_cast hn2
  have hd1q : pow2 (natLog2 q.den : ℤ) ≤ (q.den : ℚ) := by
    rw [pow2_natCast]
    exact_mod_cast hd1
  have hd2q : (q.den : ℚ) < pow2 ((natLog2 q.den : ℤ) + 1) := by
    have : ((natLog2 q.den : ℤ) + 1) = ((natLog2 q.den + 1 : ℕ) : ℤ) := by simp
    rw [this, pow2_natCast]
    exact_mod_cast hd2
  -- upper bound |q| < 2^(e0+1), lower bound 2^(e0-1) < |q|
  have hup : |q| < pow2 ((natLog2 q.num.natAbs : ℤ) - (natLog2 q.den : ℤ) + 1) := by
    rw [habs, div_lt_iff₀ hdpos]
    calc (q.num.natAbs : ℚ) < pow2 ((natLog2 q.num.natAbs : ℤ) + 1) := hn2q
      _ = pow2 ((natLog2 q.num.natAbs : ℤ) - (natLog2 q.den : ℤ) + 1) *
            pow2 (natLog2 q.den : ℤ) := by
          rw [← pow2_add]
          congr 1
          ring
      _ ≤ pow2 ((natLog2 q.num.natAbs : ℤ) - (natLog2 q.den : ℤ) + 1) * (q.den : ℚ) :=
          mul_le_mul_of_nonneg_left hd1q (le_of_lt (pow2_pos _))
  have hlow : pow2 ((natLog2 q.num.natAbs : ℤ) - (natLog2 q.den : ℤ) - 1) < |q| := by
    rw [habs, lt_div_iff₀ hdpos]
    calc pow2 ((natLog2 q.num.natAbs : ℤ) - (natLog2 q.den : ℤ) - 1) * (q.den : ℚ)
        < pow2 ((natLog2 q.num.natAbs : ℤ) - (natLog2 q.den : ℤ) - 1) *
            pow2 ((natLog2 q.den : ℤ) + 1) :=
          mul_lt_mul_of_pos_left hd2q (pow2_pos _)
      _ = pow2 (natLog2 q.num.natAbs : ℤ) := by
          rw [← pow2_add]
          congr 1
          ring
      _ ≤ (q.num.natAbs : ℚ) := hn1q
  unfold floorLog2
  simp only
  split_ifs with h
  · exact ⟨h, hup⟩
  · push_neg at h
    refine ⟨le_of_lt hlow, ?_⟩
    have : (natLog2 q.num.natAbs : ℤ) - (natLog2 q.den : ℤ) - 1 + 1 =
        (natLog2 q.num.natAbs : ℤ) - (natLog2 q.den : ℤ) := by ring
    rw [this]
    exact h

theorem roundHalfEven_intCast (z : ℤ) : roundHalfEven (z : ℚ) = z := by
  unfold roundHalfEven
  simp

theorem roundHalfEven_sub_le (x : ℚ) : |(roundHalfEven x : ℚ) - x| ≤ 1 / 2 := by
  have h1 := Int.floor_le x
  have h2 := Int.lt_floor_add_one x
  unfold roundHalfEven
  split_ifs with ha hb hc
  · rw [abs_le]
    constructor <;> linarith
  · rw [abs_le]
    push_cast
    constructor <;> linarith
  · rw [abs_le]
    push_neg at ha hb
    constructor <;> linarith
  · rw [abs_le]
    push_neg at ha hb
    push_cast
    constructor <;> linarith

theorem roundHalfEven_nonneg (x : ℚ) (hx : 0 ≤ x) : 0 ≤ roundHalfEven x := by
  have h0 : 0 ≤ ⌊x⌋ := Int.floor_nonneg.2 hx
  unfold roundHalfEven
  split_ifs <;> omega

theorem roundDouble_nonneg (q : ℚ) (hq : 0 ≤ q) :
    roundDouble q = JSNum.posInf ∨ ∃ r : ℚ, 0 ≤ r ∧ roundDouble q = JSNum.fin r := by
  unfold roundDouble
  split_ifs with h0 hov hneg
  · exact Or.inr ⟨0, le_refl _, rfl⟩
  · exact absurd hq (not_le.2 hneg)
  · exact Or.inl rfl
  · refine Or.inr ⟨_, ?_, rfl⟩
    apply mul_nonneg
    · exact_mod_cast roundHalfEven_nonneg _ (div_nonneg hq (le_of_lt (pow2_pos _)))
    · exact le_of_lt (pow2_pos _)

theorem roundedValue_sub_le (q : ℚ) : |roundedValue q - q| ≤ pow2 (ulpExponent q - 1) := by
  have hu := pow2_pos (ulpExponent q)
  have h := roundHalfEven_sub_le (q / pow2 (ulpExponent q))
  have hq : q = q / pow2 (ulpExponent q) * pow2 (ulpExponent q) := by
    field_simp
  have hhalf : pow2 (ulpExponent q - 1) = 1 / 2 * pow2 (ulpExponent q) := by
    have h1 : ulpExponent q - 1 = -1 + ulpExponent q := by ring
    have h2 : pow2 (-1) = 1 / 2 := by rw [pow2_eq_zpow]; norm_num
    rw [h1, pow2_add, h2]
  unfold roundedValue
  calc |(roundHalfEven (q / pow2 (ulpExponent q)) : ℚ) * pow2 (ulpExponent q) - q|
      = |((roundHalfEven (q / pow2 (ulpExponent q)) : ℚ) - q / pow2 (ulpExponent q)) *
          pow2 (ulpExponent q)| := by
        congr 1
        rw [sub_mul, ← hq]
    _ = |(roundHalfEven (q / pow2 (ulpExponent q)) : ℚ) - q / pow2 (ulpExponent q)| *
          pow2 (ulpExponent q) := by
        rw [abs_mul, abs_of_pos hu]
    _ ≤ 1 / 2 * pow2 (ulpExponent q) := mul_le_mul_of_nonneg_right h (le_of_lt hu)
    _ = pow2 (ulpExponent q - 1) := hhalf.symm

theorem roundDouble_dyadic (z k : ℤ) (hz : |z| < 2 ^ 53) (hk : -1074 ≤ k)
    (hq : |(z : ℚ) * pow2 k| < pow2 1024) :
    roundDouble ((z : ℚ) * pow2 k) = JSNum.fin ((z : ℚ) * pow2 k) := by
  by_cases h0 : (z : ℚ) * pow2 k = 0
  · rw [h0]
    simp [roundDouble]
  · obtain ⟨hlo, -⟩ := floorLog2_spec _ h0
    have hzq : |(z : ℚ)| < pow2 53 := by
      rw [← Int.cast_abs]
      have : pow2 53 = ((2 ^ 53 : ℤ) : ℚ) := by
        rw [pow2_eq_zpow]
        norm_num
      rw [this]
      exact_mod_cast hz
    have habs : |(z : ℚ) * pow2 k| < pow2 (53 + k) := by
      rw [abs_mul, abs_of_pos (pow2_pos k), pow2_add]
      exact mul_lt_mul_of_pos_right hzq (pow2_pos k)
    have he : floorLog2 ((z : ℚ) * pow2 k) < 53 + k := by
      by_contra hcon
      push_neg at hcon
      exact absurd (lt_of_le_of_lt (le_trans (pow2_le_pow2 hcon) hlo) habs) (lt_irrefl _)
    have hue : ulpExponent ((z : ℚ) * pow2 k) ≤ k := by
      unfold ulpExponent
      omega
    obtain ⟨j, hj⟩ := Int.eq_ofNat_of_zero_le (sub_nonneg.2 hue)
    have hk' : k = (j : ℤ) + ulpExponent ((z : ℚ) * pow2 k) := by omega
    have hdiv : (z : ℚ) * pow2 k / pow2 (ulpExponent ((z : ℚ) * pow2 k)) =
        ((z * 2 ^ j : ℤ) : ℚ) := by
      have hu := pow2_pos (ulpExponent ((z : ℚ) * pow2 k))
      rw [div_eq_iff (ne_of_gt hu)]
      conv_lhs => rw [hk', pow2_add, pow2_natCast]
      push_cast
      ring
    have hr : roundedValue ((z : ℚ) * pow2 k) = (z : ℚ) * pow2 k := by
      unfold roundedValue
      rw [hdiv, roundHalfEven_intCast]
      conv_rhs => rw [hk', pow2_add, pow2_natCast]
      push_cast
      ring
    unfold roundDouble
    rw [if_neg h0, hr, if_neg (not_le.2 hq)]

theorem roundDouble_natCast_exact (n : ℕ) (hn : n ≤ 2 ^ 53) :
    roundDouble (n : ℚ) = JSNum.fin (n : ℚ) := by
  have h53 : pow2 53 = ((2 ^ 53 : ℕ) : ℚ) := pow2_natCast 53
  have h1 : pow2 0 = 1 := by rw [pow2_eq_zpow]; simp
  rcases Nat.lt_or_ge n (2 ^ 53) with h | h
  · have hlt : (n : ℚ) < pow2 1024 := by
      have h2 : (n : ℚ) < pow2 53 := by
        rw [h53]
        exact_mod_cast h
      exact lt_trans h2 (pow2_lt_pow2 (by norm_num))
    have := roundDouble_dyadic (n : ℤ) 0
      (by rw [abs_of_nonneg (by positivity)]; exact_mod_cast h) (by norm_num)
      (by rw [h1, mul_one, Int.cast_natCast, Nat.abs_cast]; exact hlt)
    simpa [h1] using this
  · have hn' : n = 2 ^ 53 := le_antisymm hn h
    have := roundDouble_dyadic 1 53 (by norm_num) (by norm_num) (by
      rw [Int.cast_one, one_mul, abs_of_pos (pow2_pos _)]
      exact pow2_lt_pow2 (by norm_num))
    rw [Int.cast_one, one_mul, h53, ← hn'] at this
    exact this

theorem roundDouble_natCast (n : ℕ) :
    roundDouble (n : ℚ) = JSNum.posInf ∨ ∃ m : ℕ, roundDouble (n : ℚ) = JSNum.fin (m : ℚ) := by
  rcases Nat.lt_or_ge n (2 ^ 53) with h | h
  · exact Or.inr ⟨n, roundDouble_natCast_exact n (le_of_lt h)⟩
  · have hpos : (0 : ℚ) < (n : ℚ) := by
      have : 0 < n := lt_of_lt_of_le (by norm_num) h
      exact_mod_cast this
    have h0 : (n : ℚ) ≠ 0 := ne_of_gt hpos
    obtain ⟨-, hhi⟩ := floorLog2_spec _ h0
    have he : 53 ≤ floorLog2 (n : ℚ) := by
      by_contra hcon
      push_neg at hcon
      have h1 : pow2 (floorLog2 (n : ℚ) + 1) ≤ pow2 53 := pow2_le_pow2 (by omega)
      have h2 : pow2 53 = ((2 ^ 53 : ℕ) : ℚ) := pow2_natCast 53
      have h3 : ((2 ^ 53 : ℕ) : ℚ) ≤ (n : ℚ) := by exact_mod_cast h
      rw [abs_of_pos hpos] at hhi
      linarith
    have hue : 0 ≤ ulpExponent (n : ℚ) := by
      unfold ulpExponent
      omega
    obtain ⟨j, hj⟩ := Int.eq_ofNat_of_zero_le hue
    have hrn := roundHalfEven_nonneg ((n : ℚ) / pow2 (ulpExponent (n : ℚ)))
      (div_nonneg (le_of_lt hpos) (le_of_lt (pow2_pos _)))
    obtain ⟨m, hm⟩ := Int.eq_ofNat_of_zero_le hrn
    have hr : roundedValue (n : ℚ) = ((m * 2 ^ j : ℕ) : ℚ) := by
      unfold roundedValue
      rw [hm, hj, pow2_natCast]
      push_cast
      rfl
    unfold roundDouble
    rw [if_neg h0]
    split_ifs with hov hneg
    · exact absurd hpos (not_lt.2 (le_of_lt hneg))
    · exact Or.inl rfl
    · exact Or.inr ⟨m * 2 ^ j, by rw [hr]⟩

theorem roundDouble_error (q r : ℚ) (h : roundDouble q = JSNum.fin r) :
    |r - q| ≤ |q| * pow2 (-53) + pow2 (-1075) := by
  unfold roundDouble at h
  split_ifs at h with h0 hov hneg
  · injection h with h
    subst h
    subst h0
    simp
    exact le_of_lt (pow2_pos _)
  · injection h with h
    subst h
    obtain ⟨hlo, -⟩ := floorLog2_spec _ h0
    have hrem := roundedValue_sub_le q
    have hbound : pow2 (ulpExponent q - 1) ≤ |q| * pow2 (-53) + pow2 (-1075) := by
      unfold ulpExponent
      rcases le_total (floorLog2 q) (-1022) with hle | hge
      · rw [max_eq_right hle]
        have : (-1022 : ℤ) - 52 - 1 = -1075 := by norm_num
        rw [this]
        have := mul_nonneg (abs_nonneg q) (le_of_lt (pow2_pos (-53)))
        linarith
      · rw [max_eq_left hge]
        have : floorLog2 q - 52 - 1 = floorLog2 q + -53 := by ring
        rw [this, pow2_add]
        have h1 := mul_le_mul_of_nonneg_right hlo (le_of_lt (pow2_pos (-53)))
        have h2 := pow2_pos (-1075)
        linarith
    exact le_trans hrem hbound

theorem roundDouble_finite (q : ℚ) (hq : |q| < pow2 1023) :
    ∃ r : ℚ, roundDouble q = JSNum.fin r := by
  by_cases h0 : q = 0
  · exact ⟨0, by simp [roundDouble, h0]⟩
  · obtain ⟨hlo, -⟩ := floorLog2_spec _ h0
    have he : floorLog2 q < 1023 := by
      by_contra hcon
      push_neg at hcon
      exact absurd (lt_of_le_of_lt (le_trans (pow2_le_pow2 hcon) hlo) hq) (lt_irrefl _)
    have hue : ulpExponent q - 1 ≤ 969 := by
      unfold ulpExponent
      omega
    have hrem := roundedValue_sub_le q
    have h969 : pow2 (ulpExponent q - 1) ≤ pow2 969 := pow2_le_pow2 hue
    have hsum : pow2 1023 + pow2 969 ≤ pow2 1024 := by
      have h1 : pow2 969 ≤ pow2 1023 := pow2_le_pow2 (by norm_num)
      have h2 : pow2 1024 = pow2 1 * pow2 1023 := by
        rw [← pow2_add]
        norm_num
      have h3 : pow2 1 = 2 := by rw [pow2_eq_zpow]; norm_num
      rw [h2, h3]
      linarith
    have habs : |roundedValue q| ≤ |q| + pow2 (ulpExponent q - 1) := by
      have := abs_sub_abs_le_abs_sub (roundedValue q) q
      linarith
    refine ⟨roundedValue q, ?_⟩
    unfold roundDouble
    rw [if_neg h0, if_neg]
    rw [not_le]
    linarith

/-! ## Parsing lemmas -/

theorem split_map_normalize (text : Str) :
    split ':' (text.map (fun c => if isAltSeparator c then ':' else c)) =
      cutAtSeparators text := by
  induction text with
  | nil => rfl
  | cons c cs ih =>
    by_cases hc : isSeparator c = true
    · have h1 : (if isAltSeparator c = true then ':' else c) = ':' := by
        by_cases ha : isAltSeparator c = true
        · simp [ha]
        · simp only [ha]
          simp [isSeparator, isAltSeparator] at hc ha
          tauto
      simp [split, cutAtSeparators, hc, h1, ih]
    · have h2 : isAltSeparator c = false := by
        simp [isSeparator, isAltSeparator] at hc ⊢
        tauto
      have h3 : c ≠ ':' := by
        simp [isSeparator] at hc
        tauto
      simp [split, cutAtSeparators, hc, h2, h3, ih]

theorem cutAtSeparators_no_separator (text : Str) :
    ∀ p ∈ cutAtSeparators text, ∀ c ∈ p, isSeparator c = false := by
  induction text with
  | nil => simp [cutAtSeparators]
  | cons c cs ih =>
    by_cases hc : isSeparator c = true
    · simp only [cutAtSeparators, hc, if_true]
      intro p hp
      rcases List.mem_cons.1 hp with rfl | hp
      · simp
      · exact ih p hp
    · simp only [cutAtSeparators, hc]
      cases hcut : cutAtSeparators cs with
      | nil =>
        simp only [Bool.false_eq_true, if_false]
        intro p hp
        simp at hp
        subst hp
        simpa using hc
      | cons q qs =>
        simp only [Bool.false_eq_true, if_false]
        intro p hp
        rcases List.mem_cons.1 hp with rfl | hp
        · intro d hd
          rcases List.mem_cons.1 hd with rfl | hd
          · simpa using hc
          · exact ih q (by simp [hcut]) d hd
        · exact ih p (by simp [hcut, hp])

theorem cutAtSeparators_map (text : Str) (f : Char → Char)
    (hsep : ∀ c, isSeparator c = true → isSeparator (f c) = true)
    (hfix : ∀ c, isSeparator c = false → f c = c) :
    cutAtSeparators (text.map f) = cutAtSeparators text := by
  induction text with
  | nil => rfl
  | cons c cs ih =>
    by_cases hc : isSeparator c = true
    · simp [cutAtSeparators, hc, hsep c hc, ih]
    · have hc1 : isSeparator c = false := by simpa using hc
      simp [cutAtSeparators, hc1, hfix c hc1, ih]

theorem timeToSeconds_eq_cut (text : Str) :
    timeToSeconds text =
      match (cutAtSeparators text).map readPart with
      | [h, m, s] =>
        JSNum.add (JSNum.add (JSNum.mul h (JSNum.fin 3600)) (JSNum.mul m (JSNum.fin 60))) s
      | [m, s] => JSNum.add (JSNum.mul m (JSNum.fin 60)) s
      | [s] => s
      | _ => JSNum.fin 0 := by
  by_cases ht : text = []
  · subst ht
    decide
  · simp only [timeToSeconds, ht, if_false, normalizeTimeFormat, split_map_normalize]
    rfl

theorem any_isSeparator_iff (total : Str) :
    total.any isSeparator = true ↔ DurationShaped total := by
  unfold DurationShaped
  simp only [List.any_eq_true, isSeparator, Bool.or_eq_true, decide_eq_true_eq]
  constructor
  · rintro ⟨c, hc, h⟩
    rcases h with ((h | h) | h) | h <;> subst h <;> simp [hc]
  · rintro (h | h | h | h)
    · exact ⟨_, h, by simp⟩
    · exact ⟨_, h, by simp⟩
    · exact ⟨_, h, by simp⟩
    · exact ⟨_, h, by simp⟩

theorem strictEq_zero_iff (x : JSNum) :
    JSNum.strictEq x (JSNum.fin 0) = true ↔ x = JSNum.fin 0 := by
  cases x <;> simp [JSNum.strictEq]

/-! ## Counts: non-negative integers or `+Infinity` -/

theorem isCount_roundDouble (n : ℕ) : IsCount (roundDouble (n : ℚ)) := roundDouble_natCast n

theorem isCount_orZero (x : JSNum) (h : x = JSNum.nan ∨ IsCount x) : IsCount x.orZero := by
  rcases h with h | h | ⟨n, h⟩
  · subst h
    exact Or.inr ⟨0, by simp [JSNum.orZero, JSNum.falsy]⟩
  · subst h
    exact Or.inl rfl
  · subst h
    by_cases h0 : (n : ℚ) = 0
    · exact Or.inr ⟨0, by simp [JSNum.orZero, JSNum.falsy, h0]⟩
    · exact Or.inr ⟨n, by simp [JSNum.orZero, JSNum.falsy, h0]⟩

theorem isCount_mul (x : JSNum) (k : ℕ) (hk : k ≠ 0) (h : IsCount x) :
    IsCount (JSNum.mul x (JSNum.fin (k : ℚ))) := by
  have hk0 : (k : ℚ) ≠ 0 := by exact_mod_cast hk
  have hkneg : ¬ (k : ℚ) < 0 := not_lt.2 (by positivity)
  rcases h with h | ⟨n, h⟩
  · subst h
    left
    simp [JSNum.mul, hk0, JSNum.infOfSign, hkneg]
  · subst h
    have : JSNum.mul (JSNum.fin (n : ℚ)) (JSNum.fin (k : ℚ)) = roundDouble ((n * k : ℕ) : ℚ) := by
      simp [JSNum.mul]
    rw [this]
    exact isCount_roundDouble _

theorem isCount_add (x y : JSNum) (hx : IsCount x) (hy : IsCount y) :
    IsCount (JSNum.add x y) := by
  rcases hx with hx | ⟨n, hx⟩ <;> rcases hy with hy | ⟨m, hy⟩ <;> subst hx <;> subst hy
  · exact Or.inl rfl
  · exact Or.inl rfl
  · exact Or.inl rfl
  · have : JSNum.add (JSNum.fin (n : ℚ)) (JSNum.fin (m : ℚ)) = roundDouble ((n + m : ℕ) : ℚ) := by
      simp [JSNum.add]
    rw [this]
    exact isCount_roundDouble _

theorem parseInt_of_no_minus (p : Str) (h : '-' ∉ p) :
    parseInt p = JSNum.nan ∨ IsCount (parseInt p) := by
  have hS : (p.dropWhile isWhiteSpace).head? ≠ some '-' := by
    intro hh
    exact h ((List.dropWhile_sublist _).subset (List.mem_of_mem_head? hh))
  unfold parseInt
  simp only [hS, if_false]
  split_ifs <;>
    first
    | exact Or.inl rfl
    | (right
       rw [one_mul, Int.cast_natCast]
       exact isCount_roundDouble _)

theorem isCount_readPart (p : Str) (h : '-' ∉ p) : IsCount (readPart p) :=
  isCount_orZero _ (parseInt_of_no_minus p h)

theorem isCount_timeToSeconds (text : Str) : IsCount (timeToSeconds text) := by
  have hparts : ∀ p ∈ cutAtSeparators text, IsCount (readPart p) := by
    intro p hp
    apply isCount_readPart
    intro hmem
    have := cutAtSeparators_no_separator text p hp '-' hmem
    simp [isSeparator] at this
  have h3600 : (3600 : ℚ) = ((3600 : ℕ) : ℚ) := by norm_num
  have h60 : (60 : ℚ) = ((60 : ℕ) : ℚ) := by norm_num
  rw [timeToSeconds_eq_cut]
  generalize cutAtSeparators text = parts at hparts
  match parts, hparts with
  | [], _ => exact Or.inr ⟨0, by simp⟩
  | [a], h => exact h a (by simp)
  | [a, b], h =>
    have ha := h a (by simp)
    have hb := h b (by simp)
    simp only [List.map]
    rw [h60]
    exact isCount_add _ _ (isCount_mul _ 60 (by norm_num) ha) hb
  | [a, b, c], h =>
    have ha := h a (by simp)
    have hb := h b (by simp)
    have hc := h c (by simp)
    simp only [List.map]
    rw [h3600, h60]
    exact isCount_add _ _
      (isCount_add _ _ (isCount_mul _ 3600 (by norm_num) ha) (isCount_mul _ 60 (by norm_num) hb))
      hc
  | _ :: _ :: _ :: _ :: _, _ => exact Or.inr ⟨0, by simp⟩

/-! ## Reading strings of decimal digits -/

theorem isDecimalDigit_iff (c : Char) :
    isDecimalDigit c = true ↔ 48 ≤ c.toNat ∧ c.toNat ≤ 57 := by
  simp [isDecimalDigit]

theorem isWhiteSpace_of_digit (c : Char) (h : isDecimalDigit c = true) :
    isWhiteSpace c = false := by
  rw [isDecimalDigit_iff] at h
  rw [← Bool.not_eq_true]
  intro hw
  simp only [isWhiteSpace, Bool.or_eq_true, decide_eq_true_eq, Bool.and_eq_true] at hw
  omega

theorem digit_ne_of_toNat (c d : Char) (h : isDecimalDigit c = true)
    (hd : d.toNat < 48 ∨ 57 < d.toNat) : c ≠ d := by
  rw [isDecimalDigit_iff] at h
  intro hcd
  subst hcd
  omega

theorem isRadixDigit_of_digit (c : Char) (h : isDecimalDigit c = true) :
    isRadixDigit 10 c = true ∧ (digitValue c).getD 0 = c.toNat - 48 := by
  rw [isDecimalDigit_iff] at h
  have hv : digitValue c = some (c.toNat - 48) := by
    unfold digitValue
    simp only [h, and_self, if_true]
  constructor
  · unfold isRadixDigit
    rw [hv]
    simp only [decide_eq_true_eq]
    omega
  · rw [hv]
    rfl

theorem foldl_radix_eq (p : Str) (h : ∀ c ∈ p, isDecimalDigit c = true) (acc : ℕ) :
    p.foldl (fun acc c => acc * 10 + (digitValue c).getD 0) acc =
      p.foldl (fun acc c => 10 * acc + (c.toNat - 48)) acc := by
  induction p generalizing acc with
  | nil => rfl
  | cons c cs ih =>
    simp only [List.foldl_cons]
    rw [(isRadixDigit_of_digit c (h c (by simp))).2, Nat.mul_comm acc 10]
    exact ih (fun d hd => h d (List.mem_cons_of_mem _ hd)) _

theorem radixValue_ten_eq (p : Str) (h : ∀ c ∈ p, isDecimalDigit c = true) :
    radixValue 10 p = decimalValue p :=
  foldl_radix_eq p h 0

theorem hasHexMarker_of_digits (p : Str) (h : ∀ c ∈ p, isDecimalDigit c = true) :
    hasHexMarker p = false := by
  match p, h with
  | [], _ => rfl
  | [c], _ =>
    unfold hasHexMarker
    split <;> simp_all
  | c :: d :: rest, h =>
    have hd := h d (by simp)
    have hx : d ≠ 'x' := digit_ne_of_toNat d 'x' hd (Or.inr (by decide))
    have hX : d ≠ 'X' := digit_ne_of_toNat d 'X' hd (Or.inr (by decide))
    unfold hasHexMarker
    split
    · next heq =>
      simp only [List.cons.injEq] at heq
      obtain ⟨-, rfl, -⟩ := heq
      simp [hx, hX]
    · rfl

theorem parseInt_digits (p : Str) (hne : p ≠ []) (h : ∀ c ∈ p, isDecimalDigit c = true) :
    parseInt p = roundDouble (decimalValue p : ℚ) := by
  obtain ⟨c, cs, rfl⟩ := List.exists_cons_of_ne_nil hne
  have hc := h c (by simp)
  have hdrop : (c :: cs).dropWhile isWhiteSpace = c :: cs := by
    rw [List.dropWhile_cons_of_neg]
    rw [isWhiteSpace_of_digit c hc]
    simp
  have hminus : c ≠ '-' := digit_ne_of_toNat c '-' hc (Or.inl (by decide))
  have hplus : c ≠ '+' := digit_ne_of_toNat c '+' hc (Or.inl (by decide))
  have htake : (c :: cs).takeWhile (isRadixDigit 10) = c :: cs := by
    rw [List.takeWhile_eq_self_iff]
    intro d hd
    exact (isRadixDigit_of_digit d (h d hd)).1
  unfold parseInt
  simp only [hdrop, List.head?_cons, Option.some.injEq, hminus, hplus, or_self, if_false,
    hasHexMarker_of_digits (c :: cs) h, Bool.false_eq_true, htake]
  rw [if_neg (by simp), one_mul, Int.cast_natCast, radixValue_ten_eq (c :: cs) h]

theorem orZero_fin (q : ℚ) : (JSNum.fin q).orZero = JSNum.fin q := by
  by_cases h : q = 0
  · simp [JSNum.orZero, JSNum.falsy, h]
  · simp [JSNum.orZero, JSNum.falsy, h]

theorem readPart_digits (p : Str) (h : ∀ c ∈ p, isDecimalDigit c = true)
    (hv : decimalValue p ≤ 2 ^ 53) : readPart p = JSNum.fin (decimalValue p : ℚ) := by
  unfold readPart
  by_cases hne : p = []
  · subst hne
    decide
  · rw [parseInt_digits p hne h, roundDouble_natCast_exact _ hv, orZero_fin]

theorem specPartValue_digits (p : Str) (h : ∀ c ∈ p, isDecimalDigit c = true) :
    specPartValue p = decimalValue p := by
  unfold specPartValue
  rw [if_pos]
  rw [List.all_eq_true]
  exact h

theorem mul_natCast_exact (a b : ℕ) (h : a * b ≤ 2 ^ 53) :
    JSNum.mul (JSNum.fin (a : ℚ)) (JSNum.fin (b : ℚ)) = JSNum.fin ((a * b : ℕ) : ℚ) := by
  have : JSNum.mul (JSNum.fin (a : ℚ)) (JSNum.fin (b : ℚ)) = roundDouble ((a * b : ℕ) : ℚ) := by
    simp [JSNum.mul]
  rw [this, roundDouble_natCast_exact _ h]

theorem add_natCast_exact (a b : ℕ) (h : a + b ≤ 2 ^ 53) :
    JSNum.add (JSNum.fin (a : ℚ)) (JSNum.fin (b : ℚ)) = JSNum.fin ((a + b : ℕ) : ℚ) := by
  have : JSNum.add (JSNum.fin (a : ℚ)) (JSNum.fin (b : ℚ)) = roundDouble ((a + b : ℕ) : ℚ) := by
    simp [JSNum.add]
  rw [this, roundDouble_natCast_exact _ h]

/-! ## Time parsing: claims C3 and C4 -/

/-- C3, as stated, fails: the part "12abc" is not numeric, so it should count as 0, but the
code reads its leading integer 12; and for "150119987579017:1" the formula gives
9007199254741021 while the code, adding in double arithmetic, returns 9007199254741020. -/
theorem timeToSeconds_not_formula :
    cutAtSeparators "12abc".toList = ["12abc".toList] ∧
    specPartValue "12abc".toList = 0 ∧
    timeToSeconds "12abc".toList = JSNum.fin 12 ∧
    cutAtSeparators "150119987579017:1".toList = ["150119987579017".toList, "1".toList] ∧
    60 * specPartValue "150119987579017".toList + specPartValue "1".toList =
      9007199254741021 ∧
    timeToSeconds "150119987579017:1".toList = JSNum.fin 9007199254741020 := by
  refine ⟨by decide, by decide, by decide!, by decide, by decide, by decide!⟩

/-- C3, amended: cut at the four separators (all four treated identically: mapping
separators to separators never changes the result), a text with one, two or three parts
yields `p0`, `p0*60 + p1`, respectively `p0*3600 + p1*60 + p2`, where each part is read as
`parseInt` reads it (leading integer, 0 when there is none) and products and sums are
double operations.  When every part consists of decimal digits only and the exact total does
not exceed `2^53`, this is exactly `p0`, `60*p0 + p1`, `3600*p0 + 60*p1 + p2` over the
decimal values of the parts.  The three spellings of 1:02:03 give 3723 and the empty text
gives 0. -/
theorem timeToSeconds_parts (text : Str) :
    (∀ p0, cutAtSeparators text = [p0] → timeToSeconds text = readPart p0) ∧
    (∀ p0 p1, cutAtSeparators text = [p0, p1] →
      timeToSeconds text = JSNum.add (JSNum.mul (readPart p0) (JSNum.fin 60)) (readPart p1)) ∧
    (∀ p0 p1 p2, cutAtSeparators text = [p0, p1, p2] →
      timeToSeconds text =
        JSNum.add
          (JSNum.add (JSNum.mul (readPart p0) (JSNum.fin 3600))
            (JSNum.mul (readPart p1) (JSNum.fin 60)))
          (readPart p2)) ∧
    (∀ p0, cutAtSeparators text = [p0] → (∀ c ∈ p0, isDecimalDigit c = true) →
      specPartValue p0 ≤ 2 ^ 53 →
      timeToSeconds text = JSNum.fin ((specPartValue p0 : ℕ) : ℚ)) ∧
    (∀ p0 p1, cutAtSeparators text = [p0, p1] →
      (∀ c ∈ p0, isDecimalDigit c = true) → (∀ c ∈ p1, isDecimalDigit c = true) →
      60 * specPartValue p0 + specPartValue p1 ≤ 2 ^ 53 →
      timeToSeconds text =
        JSNum.fin ((60 * specPartValue p0 + specPartValue p1 : ℕ) : ℚ)) ∧
    (∀ p0 p1 p2, cutAtSeparators text = [p0, p1, p2] →
      (∀ c ∈ p0, isDecimalDigit c = true) → (∀ c ∈ p1, isDecimalDigit c = true) →
      (∀ c ∈ p2, isDecimalDigit c = true) →
      3600 * specPartValue p0 + 60 * specPartValue p1 + specPartValue p2 ≤ 2 ^ 53 →
      timeToSeconds text =
        JSNum.fin
          ((3600 * specPartValue p0 + 60 * specPartValue p1 + specPartValue p2 : ℕ) : ℚ)) ∧
    (∀ f : Char → Char, (∀ c, isSeparator c = true → isSeparator (f c) = true) →
      (∀ c, isSeparator c = false → f c = c) →
      timeToSeconds (text.map f) = timeToSeconds text) ∧
    timeToSeconds "1:02:03".toList = JSNum.fin 3723 ∧
    timeToSeconds "1.02.03".toList = JSNum.fin 3723 ∧
    timeToSeconds "1/02/03".toList = JSNum.fin 3723 ∧
    timeToSeconds "".toList = JSNum.fin 0 := by
  have h3600 : (3600 : ℚ) = ((3600 : ℕ) : ℚ) := by norm_num
  have h60 : (60 : ℚ) = ((60 : ℕ) : ℚ) := by norm_num
  refine ⟨?_, ?_, ?_, ?_, ?_, ?_, ?_, by decide!, by decide!, by decide!, by decide!⟩
  · intro p0 h
    rw [timeToSeconds_eq_cut, h]
    rfl
  · intro p0 p1 h
    rw [timeToSeconds_eq_cut, h]
    rfl
  · intro p0 p1 p2 h
    rw [timeToSeconds_eq_cut, h]
    rfl
  · intro p0 h d0 hle
    rw [specPartValue_digits p0 d0] at hle ⊢
    rw [timeToSeconds_eq_cut, h]
    simp only [List.map]
    exact readPart_digits p0 d0 hle
  · intro p0 p1 h d0 d1 hle
    rw [specPartValue_digits p0 d0, specPartValue_digits p1 d1] at hle ⊢
    rw [timeToSeconds_eq_cut, h]
    simp only [List.map]
    rw [readPart_digits p0 d0 (by omega), readPart_digits p1 d1 (by omega), h60,
      mul_natCast_exact _ _ (by omega), add_natCast_exact _ _ (by omega)]
    congr 2
    ring
  · intro p0 p1 p2 h d0 d1 d2 hle
    rw [specPartValue_digits p0 d0, specPartValue_digits p1 d1,
      specPartValue_digits p2 d2] at hle ⊢
    rw [timeToSeconds_eq_cut, h]
    simp only [List.map]
    rw [readPart_digits p0 d0 (by omega), readPart_digits p1 d1 (by omega),
      readPart_digits p2 d2 (by omega), h3600, h60,
      mul_natCast_exact _ _ (by omega), mul_natCast_exact _ _ (by omega),
      add_natCast_exact _ _ (by omega), add_natCast_exact _ _ (by omega)]
    congr 2
    ring
  · intro f hsep hfix
    rw [timeToSeconds_eq_cut, timeToSeconds_eq_cut, cutAtSeparators_map text f hsep hfix]

theorem timeToSeconds_parts_witness :
    timeToSeconds "45".toList = JSNum.fin ((specPartValue "45".toList : ℕ) : ℚ) ∧
    timeToSeconds "02-03".toList =
      JSNum.fin ((60 * specPartValue "02".toList + specPartValue "03".toList : ℕ) : ℚ) ∧
    timeToSeconds "1.02.03".toList =
      JSNum.fin ((3600 * specPartValue "1".toList + 60 * specPartValue "02".toList +
        specPartValue "03".toList : ℕ) : ℚ) ∧
    timeToSeconds "7:0x10".toList =
      JSNum.add (JSNum.mul (readPart "7".toList) (JSNum.fin 60)) (readPart "0x10".toList) ∧
    timeToSeconds ("1.02.03".toList.map (fun c => if c = '.' then '/' else c)) =
      timeToSeconds "1.02.03".toList :=
  ⟨(timeToSeconds_parts "45".toList).2.2.2.1 _ (by decide) (by decide) (by decide),
    (timeToSeconds_parts "02-03".toList).2.2.2.2.1 _ _ (by decide) (by decide) (by decide)
      (by decide),
    (timeToSeconds_parts "1.02.03".toList).2.2.2.2.2.1 _ _ _ (by decide) (by decide)
      (by decide) (by decide) (by decide),
    (timeToSeconds_parts "7:0x10".toList).2.1 _ _ (by decide),
    (timeToSeconds_parts "1.02.03".toList).2.2.2.2.2.2.1 _
      (fun c hc => by
        by_cases h : c = '.'
        · rw [if_pos h]
          decide
        · rw [if_neg h]
          exact hc)
      (fun c hc => by
        by_cases h : c = '.'
        · subst h
          exact absurd hc (by decide)
        · rw [if_neg h])⟩

set_option maxRecDepth 100000 in
/-- C4, as stated, fails: a part of 309 nines is beyond the double range, so the code
returns `+Infinity`, which is not an integer number of seconds. -/
theorem timeToSeconds_overflow :
    timeToSeconds (List.replicate 309 '9') = JSNum.posInf ∧
    ¬ ∃ n : ℤ, timeToSeconds (List.replicate 309 '9') = JSNum.fin (n : ℚ) := by
  have h : timeToSeconds (List.replicate 309 '9') = JSNum.posInf := by decide!
  refine ⟨h, ?_⟩
  rintro ⟨n, hn⟩
  rw [h] at hn
  exact JSNum.noConfusion hn

/-! ## Finite results for texts of ordinary length -/

theorem pow2_zero : pow2 0 = 1 := by
  rw [pow2_eq_zpow]
  simp

theorem pow2_succ (e : ℤ) : pow2 (e + 1) = 2 * pow2 e := by
  rw [pow2_add]
  have : pow2 1 = 2 := by
    rw [pow2_eq_zpow]
    norm_num
  rw [this, mul_comm]

theorem pow2_ge_one {e : ℤ} (h : 0 ≤ e) : 1 ≤ pow2 e := by
  rw [← pow2_zero]
  exact pow2_le_pow2 h

theorem roundDouble_natCast_le (n : ℕ) (e : ℤ) (h : (n : ℚ) ≤ pow2 e) (he : e ≤ 1022) :
    ∃ m : ℕ, roundDouble (n : ℚ) = JSNum.fin (m : ℚ) ∧ (m : ℚ) ≤ pow2 (e + 1) := by
  have hnn : (0 : ℚ) ≤ (n : ℚ) := by positivity
  have hlt : |(n : ℚ)| < pow2 1023 := by
    rw [abs_of_nonneg hnn]
    exact lt_of_le_of_lt h (pow2_lt_pow2 (by omega))
  obtain ⟨r, hr⟩ := roundDouble_finite _ hlt
  rcases roundDouble_natCast n with hinf | ⟨m, hm⟩
  · rw [hinf] at hr
    exact JSNum.noConfusion hr
  · refine ⟨m, hm, ?_⟩
    have herr := roundDouble_error _ _ hm
    rw [abs_of_nonneg hnn] at herr
    have h1 := (abs_le.1 herr).2
    rcases Nat.eq_zero_or_pos n with h0 | hpos
    · subst h0
      have hz : roundDouble ((0 : ℕ) : ℚ) = JSNum.fin 0 := by simp [roundDouble]
      rw [hz] at hm
      have hm0 : (0 : ℚ) = (m : ℚ) := JSNum.fin.inj hm
      rw [← hm0]
      exact le_of_lt (pow2_pos _)
    · have hn1 : (1 : ℚ) ≤ (n : ℚ) := by exact_mod_cast hpos
      have h53 : pow2 (-53) ≤ 1 / 2 := by
        have : pow2 (-53) ≤ pow2 (-1) := pow2_le_pow2 (by norm_num)
        have h2 : pow2 (-1) = 1 / 2 := by rw [pow2_eq_zpow]; norm_num
        rw [h2] at this
        exact this
      have h1075 : pow2 (-1075) ≤ 1 / 2 := by
        have : pow2 (-1075) ≤ pow2 (-1) := pow2_le_pow2 (by norm_num)
        have h2 : pow2 (-1) = 1 / 2 := by rw [pow2_eq_zpow]; norm_num
        rw [h2] at this
        exact this
      have hmul : (n : ℚ) * pow2 (-53) ≤ (n : ℚ) * (1 / 2) :=
        mul_le_mul_of_nonneg_left h53 hnn
      rw [pow2_succ]
      linarith

theorem countBelow_mono {e e' : ℤ} {x : JSNum} (h : CountBelow e x) (he : e ≤ e') :
    CountBelow e' x := by
  obtain ⟨n, hx, hn⟩ := h
  exact ⟨n, hx, le_trans hn (pow2_le_pow2 he)⟩

theorem countBelow_mul (x : JSNum) (k : ℕ) (e j : ℤ) (hx : CountBelow e x)
    (hk : (k : ℚ) ≤ pow2 j) (he : e + j ≤ 1022) :
    CountBelow (e + j + 1) (JSNum.mul x (JSNum.fin (k : ℚ))) := by
  obtain ⟨n, rfl, hn⟩ := hx
  have hmul : JSNum.mul (JSNum.fin (n : ℚ)) (JSNum.fin (k : ℚ)) =
      roundDouble ((n * k : ℕ) : ℚ) := by
    simp [JSNum.mul]
  rw [hmul]
  have hle : ((n * k : ℕ) : ℚ) ≤ pow2 (e + j) := by
    rw [pow2_add]
    push_cast
    exact mul_le_mul hn hk (by positivity) (le_of_lt (pow2_pos _))
  obtain ⟨m, hm, hmle⟩ := roundDouble_natCast_le _ _ hle he
  exact ⟨m, hm, hmle⟩

theorem countBelow_add (x y : JSNum) (e : ℤ) (hx : CountBelow e x) (hy : CountBelow e y)
    (he : e + 1 ≤ 1022) : CountBelow (e + 2) (JSNum.add x y) := by
  obtain ⟨n, rfl, hn⟩ := hx
  obtain ⟨m, rfl, hm⟩ := hy
  have hadd : JSNum.add (JSNum.fin (n : ℚ)) (JSNum.fin (m : ℚ)) =
      roundDouble ((n + m : ℕ) : ℚ) := by
    simp [JSNum.add]
  rw [hadd]
  have hle : ((n + m : ℕ) : ℚ) ≤ pow2 (e + 1) := by
    rw [pow2_succ]
    push_cast
    linarith
  obtain ⟨r, hr, hrle⟩ := roundDouble_natCast_le _ _ hle he
  have : e + 1 + 1 = e + 2 := by ring
  rw [this] at hrle
  exact ⟨r, hr, hrle⟩

theorem digitValue_lt_of_isRadixDigit (R : ℕ) (c : Char) (h : isRadixDigit R c = true) :
    (digitValue c).getD 0 < R := by
  unfold isRadixDigit at h
  cases hd : digitValue c with
  | none => simp [hd] at h
  | some d =>
    simp only [hd, decide_eq_true_eq] at h
    simpa using h

theorem foldl_radix_lt (R : ℕ) (hR : R ≤ 16) (Z : Str)
    (hZ : ∀ c ∈ Z, isRadixDigit R c = true) (acc k : ℕ) (hacc : acc < 16 ^ k) :
    Z.foldl (fun acc c => acc * R + (digitValue c).getD 0) acc < 16 ^ (k + Z.length) := by
  induction Z generalizing acc k with
  | nil => simpa using hacc
  | cons c cs ih =>
    simp only [List.foldl_cons, List.length_cons]
    have hd := digitValue_lt_of_isRadixDigit R c (hZ c (by simp))
    have hstep : acc * R + (digitValue c).getD 0 < 16 ^ (k + 1) := by
      have h1 : acc * R ≤ acc * 16 := Nat.mul_le_mul_left _ hR
      rw [pow_succ]
      omega
    have := ih (fun d hd => hZ d (List.mem_cons_of_mem _ hd)) _ (k + 1) hstep
    have hk : k + 1 + cs.length = k + (cs.length + 1) := by ring
    rw [hk] at this
    exact this

theorem radixValue_lt (R : ℕ) (hR : R ≤ 16) (Z : Str)
    (hZ : ∀ c ∈ Z, isRadixDigit R c = true) : radixValue R Z < 16 ^ Z.length := by
  have := foldl_radix_lt R hR Z hZ 0 0 (by norm_num)
  simpa [radixValue] using this

theorem radixValue_takeWhile_le (R : ℕ) (hR : R ≤ 16) (S : Str) (L : ℕ) (hS : S.length ≤ L) :
    ((radixValue R (S.takeWhile (isRadixDigit R)) : ℕ) : ℚ) ≤ pow2 (4 * (L : ℤ)) := by
  have hall : ∀ c ∈ S.takeWhile (isRadixDigit R), isRadixDigit R c = true :=
    fun c hc => List.mem_takeWhile_imp hc
  have hlt := radixValue_lt R hR _ hall
  have hlen : (S.takeWhile (isRadixDigit R)).length ≤ L :=
    le_trans (List.takeWhile_sublist _).length_le hS
  have h16 : (16 : ℕ) ^ (S.takeWhile (isRadixDigit R)).length ≤ 16 ^ L :=
    Nat.pow_le_pow_right (by norm_num) hlen
  have hpow : pow2 (4 * (L : ℤ)) = ((16 ^ L : ℕ) : ℚ) := by
    have h4 : (4 * (L : ℤ)) = ((4 * L : ℕ) : ℤ) := by push_cast; ring
    rw [h4, pow2_natCast, pow_mul]
    norm_num
  rw [hpow]
  exact_mod_cast le_of_lt (lt_of_lt_of_le hlt h16)

theorem readPart_countBelow (p : Str) (h : '-' ∉ p) (L : ℕ) (hL : p.length ≤ L)
    (hbound : 4 * (L : ℤ) ≤ 1022) : CountBelow (4 * (L : ℤ) + 1) (readPart p) := by
  have hS : (p.dropWhile isWhiteSpace).head? ≠ some '-' := by
    intro hh
    exact h ((List.dropWhile_sublist _).subset (List.mem_of_mem_head? hh))
  have hdrop : (p.dropWhile isWhiteSpace).length ≤ L :=
    le_trans (List.dropWhile_sublist _).length_le hL
  have hzero : CountBelow (4 * (L : ℤ) + 1) (JSNum.fin 0) :=
    ⟨0, by simp, by simpa using le_of_lt (pow2_pos _)⟩
  have hfin : ∀ (R : ℕ) (S : Str), R ≤ 16 → S.length ≤ L →
      CountBelow (4 * (L : ℤ) + 1)
        (roundDouble (((1 : ℤ) * (radixValue R (S.takeWhile (isRadixDigit R)) : ℤ) : ℤ) : ℚ)).orZero := by
    intro R S hR hSl
    rw [one_mul, Int.cast_natCast]
    obtain ⟨m, hm, hmle⟩ := roundDouble_natCast_le _ _ (radixValue_takeWhile_le R hR S L hSl) hbound
    rw [hm, orZero_fin]
    exact ⟨m, rfl, hmle⟩
  unfold readPart parseInt
  simp only [hS, if_false]
  split_ifs with h1 h2 h3 h4 h5 h6
  · exact hzero
  · exact hfin 16 _ (by norm_num) (le_trans (List.drop_sublist _ _).length_le
      (le_trans (List.tail_sublist _).length_le hdrop))
  · exact hzero
  · exact hfin 10 _ (by norm_num) (le_trans (List.tail_sublist _).length_le hdrop)
  · exact hzero
  · exact hfin 16 _ (by norm_num) (le_trans (List.drop_sublist _ _).length_le hdrop)
  · exact hzero
  · exact hfin 10 _ (by norm_num) hdrop

theorem cutAtSeparators_length_le (text : Str) :
    ∀ p ∈ cutAtSeparators text, p.length ≤ text.length := by
  induction text with
  | nil => simp [cutAtSeparators]
  | cons c cs ih =>
    by_cases hc : isSeparator c = true
    · simp only [cutAtSeparators, hc, if_true]
      intro p hp
      rcases List.mem_cons.1 hp with rfl | hp
      · simp
      · exact le_trans (ih p hp) (by simp)
    · simp only [cutAtSeparators, hc]
      cases hcut : cutAtSeparators cs with
      | nil =>
        simp only [Bool.false_eq_true, if_false]
        intro p hp
        simp at hp
        subst hp
        simp
      | cons q qs =>
        simp only [Bool.false_eq_true, if_false]
        intro p hp
        rcases List.mem_cons.1 hp with rfl | hp
        · have := ih q (by simp [hcut])
          simp only [List.length_cons]
          omega
        · exact le_trans (ih p (by simp [hcut, hp])) (by simp)

theorem timeToSeconds_finite_of_short (text : Str) (hlen : text.length ≤ 250) :
    ∃ n : ℕ, timeToSeconds text = JSNum.fin (n : ℚ) := by
  have hparts : ∀ p ∈ cutAtSeparators text, CountBelow 1001 (readPart p) := by
    intro p hp
    have hminus : '-' ∉ p := by
      intro hmem
      have := cutAtSeparators_no_separator text p hp '-' hmem
      simp [isSeparator] at this
    have := readPart_countBelow p hminus 250
      (le_trans (cutAtSeparators_length_le text p hp) hlen) (by norm_num)
    norm_num at this
    exact this
  have h3600 : (3600 : ℚ) = ((3600 : ℕ) : ℚ) := by norm_num
  have h60 : (60 : ℚ) = ((60 : ℕ) : ℚ) := by norm_num
  have hk3600 : ((3600 : ℕ) : ℚ) ≤ pow2 12 := by
    rw [pow2_eq_zpow]
    norm_num
  have hk60 : ((60 : ℕ) : ℚ) ≤ pow2 6 := by
    rw [pow2_eq_zpow]
    norm_num
  rw [timeToSeconds_eq_cut]
  generalize cutAtSeparators text = parts at hparts
  match parts, hparts with
  | [], _ => exact ⟨0, by simp⟩
  | [a], h =>
    obtain ⟨n, hn, -⟩ := h a (by simp)
    exact ⟨n, hn⟩
  | [a, b], h =>
    have ha := h a (by simp)
    have hb := h b (by simp)
    simp only [List.map]
    rw [h60]
    have h1 := countBelow_mul _ 60 1001 6 ha hk60 (by norm_num)
    have h2 := countBelow_add _ _ 1008 (by norm_num at h1; exact h1)
      (countBelow_mono hb (by norm_num)) (by norm_num)
    obtain ⟨n, hn, -⟩ := h2
    exact ⟨n, hn⟩
  | [a, b, c], h =>
    have ha := h a (by simp)
    have hb := h b (by simp)
    have hc := h c (by simp)
    simp only [List.map]
    rw [h3600, h60]
    have h1 := countBelow_mul _ 3600 1001 12 ha hk3600 (by norm_num)
    have h2 := countBelow_mul _ 60 1001 6 hb hk60 (by norm_num)
    have h3 := countBelow_add _ _ 1014 (by norm_num at h1; exact h1)
      (countBelow_mono h2 (by norm_num)) (by norm_num)
    have h4 := countBelow_add _ _ 1016 (by norm_num at h3; exact h3)
      (countBelow_mono hc (by norm_num)) (by norm_num)
    obtain ⟨n, hn, -⟩ := h4
    exact ⟨n, hn⟩
  | _ :: _ :: _ :: _ :: _, _ => exact ⟨0, by simp⟩

/-- C4, amended: for every text (empty, malformed, signed, with any number of parts),
`timeToSeconds` is total and returns either a non-negative integer or `+Infinity`, never NaN
and never a negative value; for a text of at most 250 characters it returns a non-negative
integer. -/
theorem timeToSeconds_count (text : Str) :
    (timeToSeconds text = JSNum.posInf ∨ ∃ n : ℕ, timeToSeconds text = JSNum.fin (n : ℚ)) ∧
    (text.length ≤ 250 → ∃ n : ℕ, timeToSeconds text = JSNum.fin (n : ℚ)) :=
  ⟨isCount_timeToSeconds text, timeToSeconds_finite_of_short text⟩

theorem timeToSeconds_count_witness :
    ("1:02:03".toList).length ≤ 250 ∧
    ∃ n : ℕ, timeToSeconds "1:02:03".toList = JSNum.fin (n : ℚ) :=
  ⟨by decide, (timeToSeconds_count "1:02:03".toList).2 (by decide)⟩

/-! ## Percentage: claims C1 and C2 -/

theorem calculatePercentage_eq_percentOf (completed total : Str) :
    calculatePercentage completed total =
      percentOf (completedMeasure completed total) (totalMeasure total) := by
  unfold calculatePercentage percentOf completedMeasure totalMeasure
  by_cases hsep : total.any isSeparator = true
  · have hmem := (any_isSeparator_iff total).1 hsep
    simp only [hsep, hmem, if_true]
  · have hmem : ¬ DurationShaped total := fun h => hsep ((any_isSeparator_iff total).2 h)
    simp only [hsep, hmem, Bool.false_eq_true, if_false]

theorem nonNegative_of_isCount (x : JSNum) (h : IsCount x) : NonNegative x := by
  rcases h with h | ⟨n, h⟩
  · exact Or.inl h
  · exact Or.inr ⟨n, by positivity, h⟩

theorem nonNegative_roundDouble (q : ℚ) (hq : 0 ≤ q) : NonNegative (roundDouble q) :=
  roundDouble_nonneg q hq

theorem parseUnsignedDecimal_nonneg (s : Str) (q : ℚ) (h : parseUnsignedDecimal s = some q) :
    0 ≤ q := by
  unfold parseUnsignedDecimal at h
  dsimp only at h
  split at h
  · split_ifs at h
    simp only [Option.some.injEq] at h
    subst h
    positivity
  · split_ifs at h
    simp only [Option.some.injEq] at h
    subst h
    positivity

theorem parseFloat_of_no_minus (s : Str) (h : '-' ∉ s) :
    parseFloat s = JSNum.nan ∨ NonNegative (parseFloat s) := by
  have hS : (s.dropWhile isWhiteSpace).head? ≠ some '-' := by
    intro hh
    exact h ((List.dropWhile_sublist _).subset (List.mem_of_mem_head? hh))
  unfold parseFloat
  simp only [hS, decide_False, JSNum.infOfSign, Bool.false_eq_true, if_false]
  split_ifs
  · exact Or.inr (Or.inl rfl)
  · split
    · exact Or.inl rfl
    · next q hq => exact Or.inr (nonNegative_roundDouble q (parseUnsignedDecimal_nonneg _ q hq))
  · exact Or.inr (Or.inl rfl)
  · split
    · exact Or.inl rfl
    · next q hq => exact Or.inr (nonNegative_roundDouble q (parseUnsignedDecimal_nonneg _ q hq))

theorem nonNegative_orZero (x : JSNum) (h : x = JSNum.nan ∨ NonNegative x) :
    NonNegative x.orZero := by
  rcases h with h | h | ⟨q, hq, h⟩
  · subst h
    exact Or.inr ⟨0, le_refl _, by simp [JSNum.orZero, JSNum.falsy]⟩
  · subst h
    exact Or.inl rfl
  · subst h
    rw [orZero_fin]
    exact Or.inr ⟨q, hq, rfl⟩

theorem nonNegative_totalMeasure (total : Str) : NonNegative (totalMeasure total) := by
  unfold totalMeasure
  split_ifs with h
  · exact nonNegative_of_isCount _ (isCount_timeToSeconds total)
  · apply nonNegative_orZero
    apply parseFloat_of_no_minus
    intro hm
    exact h (Or.inr (Or.inr (Or.inr hm)))

theorem nonNegative_completedMeasure (completed total : Str) (h : DurationShaped total) :
    NonNegative (completedMeasure completed total) := by
  unfold completedMeasure
  rw [if_pos h]
  exact nonNegative_of_isCount _ (isCount_timeToSeconds completed)

theorem percentOf_zero (c : JSNum) : percentOf c (JSNum.fin 0) = JSNum.fin 0 := by
  simp [percentOf, JSNum.strictEq]

theorem capped_of_nonNegative (x : JSNum) (hx : NonNegative x) :
    ∃ p : ℤ, JSNum.min (JSNum.round x) (JSNum.fin 100) = JSNum.fin (p : ℚ) ∧ 0 ≤ p ∧ p ≤ 100 := by
  rcases hx with hx | ⟨q, hq, hx⟩
  · subst hx
    exact ⟨100, by simp [JSNum.round, JSNum.min], by norm_num, le_refl _⟩
  · subst hx
    refine ⟨Min.min ⌊q + 1 / 2⌋ 100, ?_, ?_, min_le_right _ _⟩
    · simp only [JSNum.round, JSNum.min]
      congr 1
      push_cast
      rfl
    · apply le_min
      · apply Int.floor_nonneg.2
        positivity
      · norm_num

theorem nonNegative_mul_hundred (x : JSNum) (hx : NonNegative x) :
    NonNegative (JSNum.mul x (JSNum.fin 100)) := by
  rcases hx with hx | ⟨q, hq, hx⟩
  · subst hx
    left
    simp [JSNum.mul, JSNum.infOfSign]
  · subst hx
    have : JSNum.mul (JSNum.fin q) (JSNum.fin 100) = roundDouble (q * 100) := by
      simp [JSNum.mul]
    rw [this]
    exact nonNegative_roundDouble _ (by positivity)

theorem nonNegative_div (c t : JSNum) (hc : NonNegative c) (ht : NonNegative t)
    (h0 : t ≠ JSNum.fin 0) (hinf : ¬ (c = JSNum.posInf ∧ t = JSNum.posInf)) :
    NonNegative (JSNum.div c t) := by
  rcases hc with hc | ⟨a, ha, hc⟩ <;> rcases ht with ht | ⟨b, hb, ht⟩ <;> subst hc <;> subst ht
  · exact absurd ⟨rfl, rfl⟩ hinf
  · left
    have hb' : ¬ b < 0 := not_lt.2 hb
    simp [JSNum.div, JSNum.infOfSign, hb']
  · exact Or.inr ⟨0, le_refl _, by simp [JSNum.div]⟩
  · have hb0 : b ≠ 0 := fun h => h0 (by rw [h])
    have : JSNum.div (JSNum.fin a) (JSNum.fin b) = roundDouble (a / b) := by
      simp [JSNum.div, hb0]
    rw [this]
    exact nonNegative_roundDouble _ (div_nonneg ha hb)

theorem percentOf_range (c t : JSNum) (hc : NonNegative c) (ht : NonNegative t)
    (hinf : ¬ (c = JSNum.posInf ∧ t = JSNum.posInf)) :
    ∃ p : ℤ, percentOf c t = JSNum.fin (p : ℚ) ∧ 0 ≤ p ∧ p ≤ 100 := by
  by_cases h0 : t = JSNum.fin 0
  · subst h0
    exact ⟨0, by rw [percentOf_zero]; simp, le_refl _, by norm_num⟩
  · have hs : JSNum.strictEq t (JSNum.fin 0) = false := by
      rw [← Bool.not_eq_true, strictEq_zero_iff]
      exact h0
    unfold percentOf
    rw [hs]
    simp only [Bool.false_eq_true, if_false]
    exact capped_of_nonNegative _
      (nonNegative_mul_hundred _ (nonNegative_div c t hc ht h0 hinf))

set_option maxRecDepth 100000 in
/-- C2, as stated, fails: with completed "-5" and total "10" the result is -50, and when both
duration measures overflow (two times of 309 nines) the result is NaN; neither is an integer
in the range 0..100. -/
theorem calculatePercentage_out_of_range :
    calculatePercentage "-5".toList "10".toList = JSNum.fin (-50) ∧
    (¬ ∃ p : ℤ, calculatePercentage "-5".toList "10".toList = JSNum.fin (p : ℚ) ∧
      0 ≤ p ∧ p ≤ 100) ∧
    calculatePercentage (List.replicate 309 '9' ++ ":0".toList)
      (List.replicate 309 '9' ++ ":0".toList) = JSNum.nan := by
  have h : calculatePercentage "-5".toList "10".toList = JSNum.fin (-50) := by decide!
  refine ⟨h, ?_, by decide!⟩
  rintro ⟨p, hp, h0, -⟩
  rw [h] at hp
  have hq : ((-50 : ℚ)) = (p : ℚ) := JSNum.fin.inj hp
  have hp50 : p = -50 := by
    have : ((-50 : ℤ) : ℚ) = (p : ℚ) := by simpa using hq
    exact (Int.cast_injective this).symm
  omega

/-- C2, amended: if the total measure is 0 the result is 0; if the completed measure is not
negative and the two measures are not both `+Infinity`, the result is an integer between 0
and 100.  The total measure is never negative, and in the duration shape neither is the
completed measure; a negative result needs a count-shaped total with a negative completed
number, and NaN needs both measures infinite. -/
theorem calculatePercentage_range (completed total : Str) :
    (totalMeasure total = JSNum.fin 0 → calculatePercentage completed total = JSNum.fin 0) ∧
    (NonNegative (completedMeasure completed total) →
      ¬ (completedMeasure completed total = JSNum.posInf ∧ totalMeasure total = JSNum.posInf) →
      ∃ p : ℤ, calculatePercentage completed total = JSNum.fin (p : ℚ) ∧ 0 ≤ p ∧ p ≤ 100) ∧
    NonNegative (totalMeasure total) ∧
    (DurationShaped total → NonNegative (completedMeasure completed total)) := by
  refine ⟨?_, ?_, nonNegative_totalMeasure total, nonNegative_completedMeasure completed total⟩
  · intro h0
    rw [calculatePercentage_eq_percentOf, h0, percentOf_zero]
  · intro hc hinf
    rw [calculatePercentage_eq_percentOf]
    exact percentOf_range _ _ hc (nonNegative_totalMeasure total) hinf

theorem calculatePercentage_range_witness :
    (∃ p : ℤ, calculatePercentage "90:00".toList "1:00:00".toList = JSNum.fin (p : ℚ) ∧
      0 ≤ p ∧ p ≤ 100) ∧
    (∃ p : ℤ, calculatePercentage "Infinity".toList "10".toList = JSNum.fin (p : ℚ) ∧
      0 ≤ p ∧ p ≤ 100) ∧
    calculatePercentage "-5".toList "0".toList = JSNum.fin 0 :=
  ⟨(calculatePercentage_range "90:00".toList "1:00:00".toList).2.1
      ((calculatePercentage_range "90:00".toList "1:00:00".toList).2.2.2 (by decide))
      (by decide!),
    (calculatePercentage_range "Infinity".toList "10".toList).2.1 (Or.inl (by decide!))
      (by decide!),
    (calculatePercentage_range "-5".toList "0".toList).1 (by decide!)⟩

theorem roundDouble_of_nonneg_lt (q : ℚ) (hq : 0 ≤ q) (hlt : q < pow2 1023) :
    ∃ x : ℚ, roundDouble q = JSNum.fin x ∧ 0 ≤ x ∧
      |x - q| ≤ q * pow2 (-53) + pow2 (-1075) := by
  have habs : |q| < pow2 1023 := by rwa [abs_of_nonneg hq]
  obtain ⟨x, hx⟩ := roundDouble_finite q habs
  have herr := roundDouble_error q x hx
  rw [abs_of_nonneg hq] at herr
  refine ⟨x, hx, ?_, herr⟩
  rcases roundDouble_nonneg q hq with hinf | ⟨r, hr, hfin⟩
  · rw [hinf] at hx
    exact JSNum.noConfusion hx
  · rw [hfin] at hx
    rw [← JSNum.fin.inj hx]
    exact hr

theorem pow2_double (e : ℤ) : pow2 e + pow2 e = pow2 (e + 1) := by
  rw [pow2_succ]
  ring

theorem percentOf_fin (a b : ℚ) (hb : b ≠ 0) :
    percentOf (JSNum.fin a) (JSNum.fin b) =
      JSNum.min (JSNum.round (JSNum.mul (roundDouble (a / b)) (JSNum.fin 100)))
        (JSNum.fin 100) := by
  have hs : JSNum.strictEq (JSNum.fin b) (JSNum.fin 0) = false := by
    simp [JSNum.strictEq, hb]
  simp [percentOf, hs, JSNum.div, hb]

theorem percentOf_small (a b : ℚ) (ha : 0 ≤ a) (hb : 0 < b) (hX : a / b < 16) :
    ∃ y : ℚ, percentOf (JSNum.fin a) (JSNum.fin b) =
        JSNum.fin ((Min.min ⌊y + 1 / 2⌋ 100 : ℤ) : ℚ) ∧
      |y - a / b * 100| < pow2 (-40) := by
  have hX0 : 0 ≤ a / b := div_nonneg ha (le_of_lt hb)
  have h16 : (16 : ℚ) = pow2 4 := by rw [pow2_eq_zpow]; norm_num
  have h2048 : (2048 : ℚ) = pow2 11 := by rw [pow2_eq_zpow]; norm_num
  have h128 : (128 : ℚ) = pow2 7 := by rw [pow2_eq_zpow]; norm_num
  have htiny49 : pow2 (-1075) ≤ pow2 (-49) := pow2_le_pow2 (by norm_num)
  have htiny42 : pow2 (-1075) ≤ pow2 (-42) := pow2_le_pow2 (by norm_num)
  have hp53 := pow2_pos (-53)
  -- the quotient
  obtain ⟨x, hx, hx0, hxerr⟩ := roundDouble_of_nonneg_lt (a / b) hX0
    (lt_trans hX (by rw [h16]; exact pow2_lt_pow2 (by norm_num)))
  have hxbound : |x - a / b| ≤ pow2 (-48) := by
    have h1 : a / b * pow2 (-53) ≤ pow2 4 * pow2 (-53) := by
      rw [← h16]
      exact mul_le_mul_of_nonneg_right (le_of_lt hX) (le_of_lt hp53)
    have h2 : pow2 4 * pow2 (-53) = pow2 (-49) := by
      rw [← pow2_add]
      norm_num
    have h3 := pow2_double (-49)
    have h4 : (-49 : ℤ) + 1 = -48 := by norm_num
    rw [h4] at h3
    linarith
  have h48 : pow2 (-48) ≤ 1 := by
    rw [← pow2_zero]
    exact pow2_le_pow2 (by norm_num)
  have hxlt : x < 17 := by
    have := (abs_le.1 hxbound).2
    linarith
  -- the product with 100
  have hprod0 : 0 ≤ x * 100 := by positivity
  obtain ⟨y, hy, hy0, hyerr⟩ := roundDouble_of_nonneg_lt (x * 100) hprod0
    (lt_trans (by linarith : x * 100 < 2048) (by rw [h2048]; exact pow2_lt_pow2 (by norm_num)))
  have hybound : |y - x * 100| ≤ pow2 (-41) := by
    have h1 : x * 100 * pow2 (-53) ≤ pow2 11 * pow2 (-53) := by
      rw [← h2048]
      exact mul_le_mul_of_nonneg_right (by linarith) (le_of_lt hp53)
    have h2 : pow2 11 * pow2 (-53) = pow2 (-42) := by
      rw [← pow2_add]
      norm_num
    have h3 := pow2_double (-42)
    have h4 : (-42 : ℤ) + 1 = -41 := by norm_num
    rw [h4] at h3
    linarith
  refine ⟨y, ?_, ?_⟩
  · rw [percentOf_fin a b (ne_of_gt hb), hx]
    have hmul : JSNum.mul (JSNum.fin x) (JSNum.fin 100) = roundDouble (x * 100) := by
      simp [JSNum.mul]
    rw [hmul, hy]
    simp only [JSNum.round, JSNum.min]
    congr 1
    push_cast
    rfl
  · have htri : |y - a / b * 100| ≤ |y - x * 100| + 100 * |x - a / b| := by
      have h1 : y - a / b * 100 = (y - x * 100) + 100 * (x - a / b) := by ring
      rw [h1]
      calc |(y - x * 100) + 100 * (x - a / b)|
          ≤ |y - x * 100| + |100 * (x - a / b)| := abs_add _ _
        _ = |y - x * 100| + 100 * |x - a / b| := by
            rw [abs_mul, abs_of_pos (by norm_num : (0 : ℚ) < 100)]
    have h100 : 100 * pow2 (-48) < pow2 (-41) := by
      have h1 : pow2 7 * pow2 (-48) = pow2 (-41) := by
        rw [← pow2_add]
        norm_num
      rw [← h1, ← h128]
      exact mul_lt_mul_of_pos_right (by norm_num) (pow2_pos _)
    have h3 := pow2_double (-41)
    have h4 : (-41 : ℤ) + 1 = -40 := by norm_num
    rw [h4] at h3
    have h5 : 100 * |x - a / b| ≤ 100 * pow2 (-48) :=
      mul_le_mul_of_nonneg_left hxbound (by norm_num)
    linarith

theorem half_bounds : pow2 (-53) ≤ 1 / 2 ∧ pow2 (-1075) ≤ 1 / 2 := by
  have h2 : pow2 (-1) = 1 / 2 := by rw [pow2_eq_zpow]; norm_num
  constructor
  · rw [← h2]
    exact pow2_le_pow2 (by norm_num)
  · rw [← h2]
    exact pow2_le_pow2 (by norm_num)

theorem capped_of_large (z : JSNum) (h : z = JSNum.posInf ∨ ∃ y : ℚ, 101 ≤ y ∧ z = JSNum.fin y) :
    JSNum.min (JSNum.round z) (JSNum.fin 100) = JSNum.fin 100 := by
  rcases h with h | ⟨y, hy, h⟩
  · subst h
    simp [JSNum.round, JSNum.min]
  · subst h
    simp only [JSNum.round, JSNum.min]
    congr 1
    apply min_eq_right
    have : (101 : ℤ) ≤ ⌊y + 1 / 2⌋ := by
      apply Int.le_floor.2
      push_cast
      linarith
    have h2 : ((101 : ℤ) : ℚ) ≤ ((⌊y + 1 / 2⌋ : ℤ) : ℚ) := by exact_mod_cast this
    push_cast at h2
    linarith

theorem large_of_roundDouble (q : ℚ) (c : ℚ) (hc : 2 * c + 1 ≤ q) (hc0 : 0 ≤ c) :
    roundDouble q = JSNum.posInf ∨ ∃ y : ℚ, c ≤ y ∧ roundDouble q = JSNum.fin y := by
  have hq : 0 ≤ q := by linarith
  rcases roundDouble_nonneg q hq with hinf | ⟨r, -, hfin⟩
  · exact Or.inl hinf
  · right
    refine ⟨r, ?_, hfin⟩
    have herr := roundDouble_error q r hfin
    rw [abs_of_nonneg hq] at herr
    have h1 := (abs_le.1 herr).1
    obtain ⟨h53, h1075⟩ := half_bounds
    have hmul : q * pow2 (-53) ≤ q * (1 / 2) := mul_le_mul_of_nonneg_left h53 hq
    linarith

theorem percentOf_large (a b : ℚ) (hb : 0 < b) (hX : 16 ≤ a / b) :
    percentOf (JSNum.fin a) (JSNum.fin b) = JSNum.fin 100 ∧ exactPercent a b = 100 := by
  constructor
  · rw [percentOf_fin a b (ne_of_gt hb)]
    apply capped_of_large
    rcases large_of_roundDouble (a / b) 7 (by linarith) (by norm_num) with hinf | ⟨x, hx, hfin⟩
    · rw [hinf]
      left
      simp [JSNum.mul, JSNum.infOfSign]
    · rw [hfin]
      have hmul : JSNum.mul (JSNum.fin x) (JSNum.fin 100) = roundDouble (x * 100) := by
        simp [JSNum.mul]
      rw [hmul]
      exact large_of_roundDouble (x * 100) 101 (by linarith) (by norm_num)
  · unfold exactPercent
    rw [if_neg (ne_of_gt hb)]
    apply min_eq_right
    apply Int.le_floor.2
    push_cast
    linarith

theorem floor_half_eq_of_gap (Y y : ℚ) (hclose : |y - Y| < pow2 (-40))
    (hgap : ∀ n : ℤ, pow2 (-40) ≤ |Y - ((n : ℚ) + 1 / 2)|) :
    ⌊y + 1 / 2⌋ = ⌊Y + 1 / 2⌋ := by
  have hlo := Int.floor_le (Y + 1 / 2)
  have hhi := Int.lt_floor_add_one (Y + 1 / 2)
  have h1 := (abs_lt.1 hclose).1
  have h2 := (abs_lt.1 hclose).2
  have hg1 := hgap (⌊Y + 1 / 2⌋ - 1)
  have hg2 := hgap ⌊Y + 1 / 2⌋
  rw [abs_of_nonneg (by push_cast; linarith)] at hg1
  rw [abs_of_nonpos (by linarith)] at hg2
  push_cast at hg1
  rw [Int.floor_eq_iff]
  constructor <;> linarith

theorem floor_half_close (Y y : ℚ) (hclose : |y - Y| < pow2 (-40)) :
    |⌊y + 1 / 2⌋ - ⌊Y + 1 / 2⌋| ≤ 1 := by
  have h40 : pow2 (-40) ≤ 1 := by
    rw [← pow2_zero]
    exact pow2_le_pow2 (by norm_num)
  have h1 := (abs_lt.1 hclose).1
  have h2 := (abs_lt.1 hclose).2
  have hup : ⌊y + 1 / 2⌋ ≤ ⌊Y + 1 / 2⌋ + 1 := by
    have : ⌊y + 1 / 2⌋ ≤ ⌊Y + 1 / 2 + 1⌋ := Int.floor_le_floor (by linarith)
    rwa [Int.floor_add_one] at this
  have hdown : ⌊Y + 1 / 2⌋ ≤ ⌊y + 1 / 2⌋ + 1 := by
    have : ⌊Y + 1 / 2⌋ ≤ ⌊y + 1 / 2 + 1⌋ := Int.floor_le_floor (by linarith)
    rwa [Int.floor_add_one] at this
  rw [abs_le]
  constructor <;> omega

theorem percentOf_accuracy (a b : ℚ) (ha : 0 ≤ a) (hb : 0 < b) :
    (∃ p : ℤ, percentOf (JSNum.fin a) (JSNum.fin b) = JSNum.fin (p : ℚ) ∧
      |p - exactPercent a b| ≤ 1) ∧
    ((∀ n : ℤ, pow2 (-40) ≤ |a / b * 100 - ((n : ℚ) + 1 / 2)|) →
      percentOf (JSNum.fin a) (JSNum.fin b) = JSNum.fin ((exactPercent a b : ℤ) : ℚ)) := by
  rcases lt_or_le (a / b) 16 with hX | hX
  · obtain ⟨y, hy, hclose⟩ := percentOf_small a b ha hb hX
    have hexact : exactPercent a b = Min.min ⌊a / b * 100 + 1 / 2⌋ 100 := by
      unfold exactPercent
      rw [if_neg (ne_of_gt hb)]
    constructor
    · refine ⟨_, hy, ?_⟩
      rw [hexact]
      have := floor_half_close (a / b * 100) y hclose
      rw [abs_le] at this ⊢
      obtain ⟨h1, h2⟩ := this
      constructor <;> omega
    · intro hgap
      rw [hy, hexact, floor_half_eq_of_gap (a / b * 100) y hclose hgap]
  · obtain ⟨h1, h2⟩ := percentOf_large a b hb hX
    constructor
    · exact ⟨100, by rw [h1]; norm_num, by rw [h2]; norm_num⟩
    · intro _
      rw [h1, h2]
      norm_num

theorem parseFloat_digits (p : Str) (hne : p ≠ []) (h : ∀ c ∈ p, isDecimalDigit c = true) :
    parseFloat p = roundDouble (decimalValue p : ℚ) := by
  obtain ⟨c, cs, rfl⟩ := List.exists_cons_of_ne_nil hne
  have hc := h c (by simp)
  have hdrop : (c :: cs).dropWhile isWhiteSpace = c :: cs := by
    rw [List.dropWhile_cons_of_neg]
    rw [isWhiteSpace_of_digit c hc]
    simp
  have hminus : c ≠ '-' := digit_ne_of_toNat c '-' hc (Or.inl (by decide))
  have hplus : c ≠ '+' := digit_ne_of_toNat c '+' hc (Or.inl (by decide))
  have hI : c ≠ 'I' := digit_ne_of_toNat c 'I' hc (Or.inr (by decide))
  have hinf : "Infinity".toList.isPrefixOf (c :: cs) = false := by
    have : "Infinity".toList = 'I' :: "nfinity".toList := rfl
    rw [this, List.isPrefixOf]
    simp [Ne.symm hI]
  have htake : (c :: cs).takeWhile isDecimalDigit = c :: cs := by
    rw [List.takeWhile_eq_self_iff]
    exact h
  have hdropd : (c :: cs).dropWhile isDecimalDigit = [] := by
    rw [List.dropWhile_eq_nil_iff]
    exact h
  have hparse : parseUnsignedDecimal (c :: cs) = some (decimalValue (c :: cs) : ℚ) := by
    unfold parseUnsignedDecimal
    simp only [htake, hdropd]
    rw [if_neg (by simp)]
    have hexp : parseExponent [] = 0 := rfl
    rw [hexp, zpow_zero, mul_one, radixValue_ten_eq (c :: cs) h]
  unfold parseFloat
  simp only [hdrop, List.head?_cons, Option.some.injEq, hminus, hplus, or_self, if_false,
    hinf, Bool.false_eq_true, hparse, decide_False]

theorem parseFloat_orZero_digits (p : Str) (h : ∀ c ∈ p, isDecimalDigit c = true)
    (hv : decimalValue p ≤ 2 ^ 53) : (parseFloat p).orZero = JSNum.fin (decimalValue p : ℚ) := by
  by_cases hne : p = []
  · subst hne
    decide
  · rw [parseFloat_digits p hne h, roundDouble_natCast_exact _ hv, orZero_fin]

theorem not_durationShaped_of_digits (p : Str) (h : ∀ c ∈ p, isDecimalDigit c = true) :
    ¬ DurationShaped p := by
  rintro (hm | hm | hm | hm)
  · exact digit_ne_of_toNat ':' ':' (h _ hm) (Or.inr (by decide)) rfl
  · exact digit_ne_of_toNat '.' '.' (h _ hm) (Or.inl (by decide)) rfl
  · exact digit_ne_of_toNat '/' '/' (h _ hm) (Or.inl (by decide)) rfl
  · exact digit_ne_of_toNat '-' '-' (h _ hm) (Or.inl (by decide)) rfl

/-- C1, as stated, fails: for ("23", "40") the measures are 23 and 40 and the reference
`min(roundHalfUp(23 / 40 * 100), 100)` is 58, but the code, dividing and multiplying in
double arithmetic, gets 57.49999999999999 and returns 57; likewise for ("23:00", "40:00"). -/
theorem calculatePercentage_not_reference :
    completedMeasure "23".toList "40".toList = JSNum.fin 23 ∧
    totalMeasure "40".toList = JSNum.fin 40 ∧
    exactPercent 23 40 = 58 ∧
    calculatePercentage "23".toList "40".toList = JSNum.fin 57 ∧
    completedMeasure "23:00".toList "40:00".toList = JSNum.fin 1380 ∧
    totalMeasure "40:00".toList = JSNum.fin 2400 ∧
    exactPercent 1380 2400 = 58 ∧
    calculatePercentage "23:00".toList "40:00".toList = JSNum.fin 57 := by
  refine ⟨by decide!, by decide!, by decide!, by decide!, by decide!, by decide!, by decide!,
    by decide!⟩

/-- C1, amended: with the measures `c` and `t` of the claim (seconds of each string when
`total` contains a separator, otherwise the number `parseFloat` reads with NaN read as 0),
`calculatePercentage` is 0 when `t` is 0 and otherwise `min(roundHalfUp(y), 100)` where `y`
is `c / t` times 100 computed in double arithmetic.  For finite `c >= 0` and `t > 0` this is
within 1 of the exact reference `min(roundHalfUp(c / t * 100), 100)` and equal to it whenever
`c / t * 100` is at least `2^-40` away from every half-integer; in particular so for strings
of decimal digits with values up to `2^53`.  A total of "0" or "0:00" gives 0 whatever
`completed` is; ("30:00", "1:00:00") and ("5", "10") give 50 and ("12", "10") gives 100. -/
theorem calculatePercentage_reference (completed total : Str) :
    calculatePercentage completed total =
      percentOf (completedMeasure completed total) (totalMeasure total) ∧
    (totalMeasure total = JSNum.fin 0 → calculatePercentage completed total = JSNum.fin 0) ∧
    (∀ a b : ℚ, completedMeasure completed total = JSNum.fin a →
      totalMeasure total = JSNum.fin b → 0 ≤ a → 0 < b →
      (∃ p : ℤ, calculatePercentage completed total = JSNum.fin (p : ℚ) ∧
        |p - exactPercent a b| ≤ 1) ∧
      ((∀ n : ℤ, pow2 (-40) ≤ |a / b * 100 - ((n : ℚ) + 1 / 2)|) →
        calculatePercentage completed total = JSNum.fin ((exactPercent a b : ℤ) : ℚ))) ∧
    ((∀ ch ∈ completed, isDecimalDigit ch = true) → (∀ ch ∈ total, isDecimalDigit ch = true) →
      decimalValue completed ≤ 2 ^ 53 → decimalValue total ≤ 2 ^ 53 → 0 < decimalValue total →
      (∀ n : ℤ, pow2 (-40) ≤
        |(decimalValue completed : ℚ) / (decimalValue total : ℚ) * 100 - ((n : ℚ) + 1 / 2)|) →
      calculatePercentage completed total =
        JSNum.fin ((exactPercent (decimalValue completed) (decimalValue total) : ℤ) : ℚ)) ∧
    calculatePercentage completed "0".toList = JSNum.fin 0 ∧
    calculatePercentage completed "0:00".toList = JSNum.fin 0 ∧
    calculatePercentage "30:00".toList "1:00:00".toList = JSNum.fin 50 ∧
    calculatePercentage "5".toList "10".toList = JSNum.fin 50 ∧
    calculatePercentage "12".toList "10".toList = JSNum.fin 100 := by
  have hmeasures : ∀ a b : ℚ, completedMeasure completed total = JSNum.fin a →
      totalMeasure total = JSNum.fin b → 0 ≤ a → 0 < b →
      (∃ p : ℤ, calculatePercentage completed total = JSNum.fin (p : ℚ) ∧
        |p - exactPercent a b| ≤ 1) ∧
      ((∀ n : ℤ, pow2 (-40) ≤ |a / b * 100 - ((n : ℚ) + 1 / 2)|) →
        calculatePercentage completed total = JSNum.fin ((exactPercent a b : ℤ) : ℚ)) := by
    intro a b hc ht ha hb
    rw [calculatePercentage_eq_percentOf, hc, ht]
    exact percentOf_accuracy a b ha hb
  refine ⟨calculatePercentage_eq_percentOf completed total, ?_, hmeasures, ?_, ?_, ?_,
    by decide!, by decide!, by decide!⟩
  · intro h0
    rw [calculatePercentage_eq_percentOf, h0, percentOf_zero]
  · intro hc ht hvc hvt hpos hgap
    have hshape := not_durationShaped_of_digits total ht
    have hcm : completedMeasure completed total = JSNum.fin (decimalValue completed : ℚ) := by
      unfold completedMeasure
      rw [if_neg hshape, parseFloat_orZero_digits completed hc hvc]
    have htm : totalMeasure total = JSNum.fin (decimalValue total : ℚ) := by
      unfold totalMeasure
      rw [if_neg hshape, parseFloat_orZero_digits total ht hvt]
    exact (hmeasures _ _ hcm htm (by positivity) (by exact_mod_cast hpos)).2 hgap
  · have hzero : totalMeasure "0".toList = JSNum.fin 0 := by decide!
    rw [calculatePercentage_eq_percentOf, hzero, percentOf_zero]
  · have hzero : totalMeasure "0:00".toList = JSNum.fin 0 := by decide!
    rw [calculatePercentage_eq_percentOf, hzero, percentOf_zero]

theorem calculatePercentage_reference_witness :
    (∀ ch ∈ "5".toList, isDecimalDigit ch = true) ∧
    (∀ ch ∈ "10".toList, isDecimalDigit ch = true) ∧
    exactPercent (decimalValue "5".toList) (decimalValue "10".toList) = 50 ∧
    calculatePercentage "5".toList "10".toList =
      JSNum.fin ((exactPercent (decimalValue "5".toList) (decimalValue "10".toList) : ℤ) : ℚ) :=
  ⟨by decide, by decide, by decide!,
    (calculatePercentage_reference "5".toList "10".toList).2.2.2.1 (by decide) (by decide)
      (by decide) (by decide) (by decide) (fun n => by
        have hd : ((decimalValue "5".toList : ℕ) : ℚ) / ((decimalValue "10".toList : ℕ) : ℚ) * 100
            = 50 := by
          have h5 : decimalValue "5".toList = 5 := by decide
          have h10 : decimalValue "10".toList = 10 := by decide
          rw [h5, h10]
          norm_num
        rw [hd]
        have h40 : pow2 (-40) ≤ 1 / 2 := by
          have h2 : pow2 (-1) = 1 / 2 := by rw [pow2_eq_zpow]; norm_num
          rw [← h2]
          exact pow2_le_pow2 (by norm_num)
        rcases le_or_lt n 49 with hn | hn
        · have hq : (n : ℚ) ≤ 49 := by exact_mod_cast hn
          rw [abs_of_nonneg (by linarith)]
          linarith
        · have hq : (50 : ℚ) ≤ (n : ℚ) := by exact_mod_cast hn
          rw [abs_of_nonpos (by linarith)]
          linarith)⟩

/-! ## Statistics: claim C8 -/

theorem strictEq_hundred_iff (x : JSNum) :
    JSNum.strictEq x (JSNum.fin 100) = true ↔ x = JSNum.fin 100 := by
  cases x <;> simp [JSNum.strictEq]

theorem foldl_statsStep (E : List Entry) (a : JSNum) (k : ℕ) :
    E.foldl statsStep (a, k) =
      ((E.map entryPercent).foldl JSNum.add a, k + countComplete E) := by
  induction E generalizing a k with
  | nil => simp [countComplete]
  | cons e E ih =>
    simp only [List.foldl_cons, statsStep, List.map_cons]
    by_cases h : calculatePercentage e.completed e.total = JSNum.fin 100
    · have hs := (strictEq_hundred_iff _).2 h
      rw [hs, if_pos rfl, ih]
      have hc : countComplete (e :: E) = countComplete E + 1 := by
        simp [countComplete, entryPercent, h, List.countP_cons]
      rw [hc]
      simp only [entryPercent]
      congr 1
      omega
    · have hs : JSNum.strictEq (calculatePercentage e.completed e.total) (JSNum.fin 100)
          = false := by
        rw [← Bool.not_eq_true, strictEq_hundred_iff]
        exact h
      rw [hs, ih]
      have hc : countComplete (e :: E) = countComplete E := by
        simp [countComplete, entryPercent, h, List.countP_cons]
      rw [hc]
      simp [entryPercent]

theorem updateStats_of_ne_nil (E : List Entry) (h : E ≠ []) :
    updateStats E =
      some { totalEntries := E.length,
             avgProgress :=
               JSNum.round (JSNum.div (doubleSum (E.map entryPercent))
                 (roundDouble (E.length : ℚ))),
             completedCount := countComplete E } := by
  have hlen : E.length ≠ 0 := fun h0 => h (List.length_eq_zero.1 h0)
  have hpos : E.length > 0 := Nat.pos_of_ne_zero hlen
  unfold updateStats
  simp only [hlen, if_false, hpos, if_true, foldl_statsStep, doubleSum, Nat.zero_add]

theorem foldl_add_natCast (ps : List ℕ) (acc : ℕ) (h : acc + ps.sum ≤ 2 ^ 53) :
    (ps.map (fun p : ℕ => JSNum.fin (p : ℚ))).foldl JSNum.add (JSNum.fin (acc : ℚ)) =
      JSNum.fin ((acc + ps.sum : ℕ) : ℚ) := by
  induction ps generalizing acc with
  | nil => simp
  | cons p ps ih =>
    simp only [List.map_cons, List.foldl_cons, List.sum_cons] at h ⊢
    rw [add_natCast_exact acc p (by omega), ih (acc + p) (by omega)]
    congr 2
    omega

theorem sum_le_of_le_hundred (ps : List ℕ) (h : ∀ p ∈ ps, p ≤ 100) : ps.sum ≤ 100 * ps.length := by
  induction ps with
  | nil => simp
  | cons p ps ih =>
    have hp := h p (by simp)
    have := ih (fun q hq => h q (List.mem_cons_of_mem _ hq))
    simp only [List.sum_cons, List.length_cons]
    omega

theorem mean_gap (S n : ℕ) (m : ℤ) (hn : 0 < n) :
    ((S : ℚ) / n < m + 1 / 2 → (S : ℚ) / n + 1 / (2 * n) ≤ m + 1 / 2) ∧
    ((m : ℚ) - 1 / 2 < (S : ℚ) / n → (m : ℚ) - 1 / 2 + 1 / (2 * n) ≤ (S : ℚ) / n) := by
  have hnq : (0 : ℚ) < (n : ℚ) := by exact_mod_cast hn
  constructor
  · intro h
    have h1 : (2 * (S : ℤ) : ℚ) < ((2 * m + 1) * (n : ℤ) : ℤ) := by
      rw [div_lt_iff₀ hnq] at h
      push_cast
      linarith
    have h2 : 2 * (S : ℤ) < (2 * m + 1) * (n : ℤ) := by exact_mod_cast h1
    have h3 : 2 * (S : ℤ) + 1 ≤ (2 * m + 1) * (n : ℤ) := h2
    have h4 : (2 * (S : ℚ) + 1) ≤ (2 * (m : ℚ) + 1) * (n : ℚ) := by exact_mod_cast h3
    have h5 : (S : ℚ) / n + 1 / (2 * n) = (2 * (S : ℚ) + 1) / (2 * n) := by
      field_simp
      ring
    rw [h5, div_le_iff₀ (by positivity)]
    linarith
  · intro h
    have h1 : (((2 * m - 1) * (n : ℤ) : ℤ) : ℚ) < (2 * (S : ℤ) : ℚ) := by
      rw [lt_div_iff₀ hnq] at h
      push_cast
      linarith
    have h2 : (2 * m - 1) * (n : ℤ) < 2 * (S : ℤ) := by exact_mod_cast h1
    have h3 : (2 * m - 1) * (n : ℤ) + 1 ≤ 2 * (S : ℤ) := h2
    have h4 : (2 * (m : ℚ) - 1) * (n : ℚ) + 1 ≤ 2 * (S : ℚ) := by exact_mod_cast h3
    have h5 : (m : ℚ) - 1 / 2 + 1 / (2 * n) = ((2 * (m : ℚ) - 1) * n + 1) / (2 * n) := by
      field_simp
      ring
    rw [h5, div_le_div_iff₀ (by positivity) hnq]
    nlinarith

theorem mean_round_exact (S n : ℕ) (hn : 0 < n) (hn40 : n ≤ 2 ^ 40) (hS : S ≤ 100 * n) :
    JSNum.round (JSNum.div (JSNum.fin (S : ℚ)) (JSNum.fin (n : ℚ))) =
      JSNum.fin ((⌊(S : ℚ) / n + 1 / 2⌋ : ℤ) : ℚ) := by
  have hnq : (0 : ℚ) < (n : ℚ) := by exact_mod_cast hn
  have hX0 : (0 : ℚ) ≤ (S : ℚ) / n := by positivity
  have hX100 : (S : ℚ) / n ≤ 100 := by
    rw [div_le_iff₀ hnq]
    exact_mod_cast hS
  have h128 : (128 : ℚ) = pow2 7 := by rw [pow2_eq_zpow]; norm_num
  have hdiv : JSNum.div (JSNum.fin (S : ℚ)) (JSNum.fin (n : ℚ)) = roundDouble ((S : ℚ) / n) := by
    simp [JSNum.div, ne_of_gt hnq]
  obtain ⟨x, hx, hx0, hxerr⟩ := roundDouble_of_nonneg_lt ((S : ℚ) / n) hX0
    (lt_of_le_of_lt hX100 (by
      have : (100 : ℚ) < pow2 7 := by rw [← h128]; norm_num
      exact lt_trans this (pow2_lt_pow2 (by norm_num))))
  have hxbound : |x - (S : ℚ) / n| ≤ pow2 (-45) := by
    have h1 : (S : ℚ) / n * pow2 (-53) ≤ pow2 7 * pow2 (-53) := by
      rw [← h128]
      exact mul_le_mul_of_nonneg_right (by linarith) (le_of_lt (pow2_pos _))
    have h2 : pow2 7 * pow2 (-53) = pow2 (-46) := by
      rw [← pow2_add]
      norm_num
    have h3 : pow2 (-1075) ≤ pow2 (-46) := pow2_le_pow2 (by norm_num)
    have h4 := pow2_double (-46)
    have h5 : (-46 : ℤ) + 1 = -45 := by norm_num
    rw [h5] at h4
    linarith
  have hgapsize : pow2 (-45) < 1 / (2 * (n : ℚ)) := by
    have h1 : (2 * (n : ℚ)) ≤ pow2 41 := by
      have : ((n : ℕ) : ℚ) ≤ ((2 ^ 40 : ℕ) : ℚ) := by exact_mod_cast hn40
      have h40 : pow2 40 = ((2 ^ 40 : ℕ) : ℚ) := pow2_natCast 40
      have h41 : pow2 41 = 2 * pow2 40 := by
        have := pow2_succ 40
        norm_num at this
        exact this
      rw [h41, h40]
      linarith
    have h2 : pow2 (-41) ≤ 1 / (2 * (n : ℚ)) := by
      rw [le_div_iff₀ (by positivity)]
      have h3 : pow2 (-41) * pow2 41 = 1 := by
        rw [← pow2_add]
        norm_num
        exact pow2_zero
      calc pow2 (-41) * (2 * (n : ℚ)) ≤ pow2 (-41) * pow2 41 :=
            mul_le_mul_of_nonneg_left h1 (le_of_lt (pow2_pos _))
        _ = 1 := h3
    exact lt_of_lt_of_le (pow2_lt_pow2 (by norm_num)) h2
  have hlo := Int.floor_le ((S : ℚ) / n + 1 / 2)
  have hhi := Int.lt_floor_add_one ((S : ℚ) / n + 1 / 2)
  obtain ⟨hgap1, hgap2⟩ := mean_gap S n ⌊(S : ℚ) / n + 1 / 2⌋ hn
  have hx1 := (abs_le.1 hxbound).1
  have hx2 := (abs_le.1 hxbound).2
  rw [hdiv, hx]
  simp only [JSNum.round]
  congr 2
  rw [Int.floor_eq_iff]
  constructor
  · rcases eq_or_lt_of_le (by linarith :
      ((⌊(S : ℚ) / n + 1 / 2⌋ : ℤ) : ℚ) - 1 / 2 ≤ (S : ℚ) / n) with heq | hlt
    · -- the mean is exactly a half-integer, which is a double
      have hm0 : 0 ≤ ⌊(S : ℚ) / n + 1 / 2⌋ := Int.floor_nonneg.2 (by linarith)
      have hm100 : ⌊(S : ℚ) / n + 1 / 2⌋ ≤ 101 := by
        have : ⌊(S : ℚ) / n + 1 / 2⌋ ≤ ⌊(101 : ℚ)⌋ := Int.floor_le_floor (by linarith)
        simpa using this
      have hhalf : pow2 (-1) = 1 / 2 := by rw [pow2_eq_zpow]; norm_num
      have hdy := roundDouble_dyadic (2 * ⌊(S : ℚ) / n + 1 / 2⌋ - 1) (-1)
        (by rw [abs_lt]; constructor <;> omega) (by norm_num)
        (by
          rw [hhalf, abs_lt]
          have h1024 : (1024 : ℚ) ≤ pow2 1024 := by
            have : (1024 : ℚ) = pow2 10 := by rw [pow2_eq_zpow]; norm_num
            rw [this]
            exact pow2_le_pow2 (by norm_num)
          have hmq0 : (0 : ℚ) ≤ ((⌊(S : ℚ) / n + 1 / 2⌋ : ℤ) : ℚ) := by exact_mod_cast hm0
          have hmq1 : ((⌊(S : ℚ) / n + 1 / 2⌋ : ℤ) : ℚ) ≤ 101 := by exact_mod_cast hm100
          push_cast
          constructor <;> linarith)
      have hval : ((2 * ⌊(S : ℚ) / n + 1 / 2⌋ - 1 : ℤ) : ℚ) * pow2 (-1) = (S : ℚ) / n := by
        rw [hhalf]
        push_cast
        linarith
      rw [hval, hx] at hdy
      have hxeq : x = (S : ℚ) / n := JSNum.fin.inj hdy
      rw [hxeq]
      linarith
    · have := hgap2 hlt
      linarith
  · have := hgap1 (by linarith)
    linarith

/-- C8, as stated, fails: for the empty list `updateStats` hides the section and writes no
statistics at all, so there is no average equal to 0; and for the two entries with
percentages -10^19 and 100 the code, summing in double arithmetic, shows -5000000000000000000
while the mean rounded to the nearest integer is -4999999999999999950. -/
theorem updateStats_not_mean :
    updateStats [] = none ∧
    (¬ ∃ st : Stats, updateStats [] = some st ∧ st.totalEntries = 0 ∧
      st.avgProgress = JSNum.fin 0 ∧ st.completedCount = 0) ∧
    [entryNegative, entryOne].map entryPercent =
      [JSNum.fin (-10000000000000000000), JSNum.fin 100] ∧
    ⌊((-10000000000000000000 + 100 : ℚ)) / 2 + 1 / 2⌋ = -4999999999999999950 ∧
    updateStats [entryNegative, entryOne] =
      some { totalEntries := 2, avgProgress := JSNum.fin (-5000000000000000000),
             completedCount := 1 } := by
  have h : updateStats [] = none := rfl
  refine ⟨h, ?_, by decide!, by decide!, by decide!⟩
  rintro ⟨st, hst, -⟩
  rw [h] at hst
  exact Option.noConfusion hst

/-- C8, amended: for every non-empty entry list, `updateStats` writes the length of the list,
the number of entries whose percentage is exactly 100, and as average the double sum of the
percentages (added left to right) divided by the count in double arithmetic and rounded half
up.  When every percentage is an integer from 0 to 100 and there are at most `2^40` entries,
that average is exactly the mean of the percentages rounded half up.  (For the empty list
nothing is written.) -/
theorem updateStats_spec (E : List Entry) (h : E ≠ []) :
    updateStats E =
      some { totalEntries := E.length,
             avgProgress :=
               JSNum.round (JSNum.div (doubleSum (E.map entryPercent))
                 (roundDouble (E.length : ℚ))),
             completedCount := countComplete E } ∧
    (∀ ps : List ℕ, E.map entryPercent = ps.map (fun p : ℕ => JSNum.fin (p : ℚ)) →
      (∀ p ∈ ps, p ≤ 100) → E.length ≤ 2 ^ 40 →
      updateStats E =
        some { totalEntries := E.length,
               avgProgress := JSNum.fin ((⌊(ps.sum : ℚ) / (E.length : ℚ) + 1 / 2⌋ : ℤ) : ℚ),
               completedCount := countComplete E }) := by
  refine ⟨updateStats_of_ne_nil E h, ?_⟩
  intro ps hmap hle hlen
  have hlen0 : E.length ≠ 0 := fun h0 => h (List.length_eq_zero.1 h0)
  have hpslen : ps.length = E.length := by
    have := congrArg List.length hmap
    rw [List.length_map, List.length_map] at this
    exact this.symm
  have hsum := sum_le_of_le_hundred ps hle
  rw [hpslen] at hsum
  have h53 : 100 * E.length ≤ 2 ^ 53 := by
    have : 100 * E.length ≤ 100 * 2 ^ 40 := Nat.mul_le_mul_left _ hlen
    have h2 : 100 * 2 ^ 40 ≤ 2 ^ 53 := by norm_num
    omega
  have hds : doubleSum (E.map entryPercent) = JSNum.fin ((ps.sum : ℕ) : ℚ) := by
    rw [hmap]
    have := foldl_add_natCast ps 0 (by omega)
    simpa [doubleSum] using this
  have hn : roundDouble (E.length : ℚ) = JSNum.fin (E.length : ℚ) :=
    roundDouble_natCast_exact _ (by omega)
  rw [updateStats_of_ne_nil E h, hds, hn,
    mean_round_exact ps.sum E.length (Nat.pos_of_ne_zero hlen0) hlen hsum]

theorem updateStats_spec_witness :
    sampleData ≠ [] ∧
    sampleData.map entryPercent = [100, 50, 0].map (fun p : ℕ => JSNum.fin (p : ℚ)) ∧
    updateStats sampleData =
      some { totalEntries := 3, avgProgress := JSNum.fin 50, completedCount := 1 } :=
  ⟨by decide, by decide!,
    (((updateStats_spec sampleData (by decide)).2 [100, 50, 0] (by decide!) (by decide)
      (by decide)).trans (by decide!))⟩

/-! ## Entry store: claims C5, C6 and C7 -/

theorem includes_iff (s needle : Str) : includes s needle = true ↔ needle <:+: s := by
  unfold includes
  rw [List.any_eq_true, List.infix_iff_prefix_suffix]
  constructor
  · rintro ⟨t, ht, hp⟩
    exact ⟨t, by simpa using hp, (List.mem_tails t s).1 ht⟩
  · rintro ⟨t, hp, ht⟩
    exact ⟨t, (List.mem_tails t s).2 ht, by simpa using hp⟩

/-- C5: `add(link, title, total)` leaves the storage untouched (no save) when a trimmed field
is empty or the trimmed link contains neither "youtube.com" nor "youtu.be"; otherwise the
stored list becomes the old list followed by one entry holding the trimmed inputs and
completed "0".  Adding ("", "title", "10") keeps the length. -/
theorem handleAdd_spec (rowBuilds : Entry → Bool) (s : State) (link title total : Str) :
    ((trim link = [] ∨ trim title = [] ∨ trim total = [] ∨
        (¬ "youtube.com".toList <:+: trim link ∧ ¬ "youtu.be".toList <:+: trim link)) →
      (handleAdd rowBuilds (fillAddForm link title total s)).2.storage = s.storage) ∧
    (¬ (trim link = [] ∨ trim title = [] ∨ trim total = [] ∨
        (¬ "youtube.com".toList <:+: trim link ∧ ¬ "youtu.be".toList <:+: trim link)) →
      (handleAdd rowBuilds (fillAddForm link title total s)).2.storage =
        some (loadData s ++
          [{ link := trim link, title := trim title, total := trim total,
             completed := "0".toList }])) ∧
    (loadData (handleAdd rowBuilds
        (fillAddForm "".toList "title".toList "10".toList s)).2).length =
      (loadData s).length := by
  have key : ∀ l t n : Str,
      ((trim l = [] ∨ trim t = [] ∨ trim n = [] ∨
          (¬ "youtube.com".toList <:+: trim l ∧ ¬ "youtu.be".toList <:+: trim l)) →
        (handleAdd rowBuilds (fillAddForm l t n s)).2.storage = s.storage) := by
    intro l t n h
    unfold handleAdd
    simp only [fillAddForm]
    by_cases h1 : trim l = [] ∨ trim t = [] ∨ trim n = []
    · simp only [h1, if_true]
    · have h2 : ¬ "youtube.com".toList <:+: trim l ∧ ¬ "youtu.be".toList <:+: trim l := by
        tauto
      have h3 : (!includes (trim l) "youtube.com".toList &&
          !includes (trim l) "youtu.be".toList) = true := by
        simp only [Bool.and_eq_true, Bool.not_eq_true', ← Bool.not_eq_true, includes_iff]
        exact h2
      simp only [h1, if_false, h3, if_true]
  refine ⟨key link title total, ?_, ?_⟩
  · intro h
    have h1 : ¬ (trim link = [] ∨ trim title = [] ∨ trim total = []) := by tauto
    have h2 : ¬ (¬ "youtube.com".toList <:+: trim link ∧ ¬ "youtu.be".toList <:+: trim link) := by
      tauto
    have h3 : (!includes (trim link) "youtube.com".toList &&
        !includes (trim link) "youtu.be".toList) = false := by
      rw [← Bool.not_eq_true]
      simp only [Bool.and_eq_true, Bool.not_eq_true', ← Bool.not_eq_true, includes_iff]
      exact h2
    unfold handleAdd
    simp only [fillAddForm, h1, if_false, h3, Bool.false_eq_true, saveData, loadData]
    split_ifs <;> rfl
  · have hst := key "".toList "title".toList "10".toList (Or.inl (by decide))
    unfold loadData
    rw [hst]

theorem handleAdd_spec_witness :
    (handleAdd allRowsBuild (fillAddForm " https://youtu.be/d ".toList "D ".toList
      "1:30".toList (pageLoad sampleData))).2.storage =
      some (sampleData ++
        [{ link := "https://youtu.be/d".toList, title := "D".toList, total := "1:30".toList,
           completed := "0".toList }]) ∧
    (handleAdd allRowsBuild (fillAddForm "https://example.com".toList "D".toList "4".toList
      (pageLoad sampleData))).2.storage = some sampleData :=
  ⟨((handleAdd_spec allRowsBuild (pageLoad sampleData) " https://youtu.be/d ".toList
      "D ".toList "1:30".toList).2.1 (by decide)).trans (by decide),
    (handleAdd_spec allRowsBuild (pageLoad sampleData) "https://example.com".toList
      "D".toList "4".toList).1 (by decide)⟩

theorem confirmDeletion_of_none (rowBuilds : Entry → Bool) (t : State)
    (h : t.deleteTargetIndex = none) : confirmDeletion rowBuilds t = (Outcome.done, t) := by
  unfold confirmDeletion
  rw [h]

theorem confirmDeletion_of_some (rowBuilds : Entry → Bool) (t : State) (i : ℕ)
    (h : t.deleteTargetIndex = some i) :
    confirmDeletion rowBuilds t =
      if renderTable rowBuilds ((loadData t).eraseIdx i) then
        (Outcome.done,
          { closeDeleteModal (saveData ((loadData t).eraseIdx i) t) with
            deleteTargetIndex := none })
      else (Outcome.typeError, closeDeleteModal (saveData ((loadData t).eraseIdx i) t)) := by
  unfold confirmDeletion
  rw [h]

theorem loadData_confirmDeletion (rowBuilds : Entry → Bool) (t : State) (i : ℕ)
    (h : t.deleteTargetIndex = some i) :
    loadData (confirmDeletion rowBuilds t).2 = (loadData t).eraseIdx i := by
  rw [confirmDeletion_of_some rowBuilds t i h]
  split_ifs <;> rfl

/-- C6: with delete target `i` inside a stored list of length `n`, `confirmDeletion` leaves
`n - 1` entries; positions below `i` keep their entry and every position `j` from `i` on
holds the former entry `j + 1`. -/
theorem confirmDeletion_spec (rowBuilds : Entry → Bool) (s : State) (i : ℕ)
    (ht : s.deleteTargetIndex = some i) (hi : i < (loadData s).length) :
    (loadData (confirmDeletion rowBuilds s).2).length = (loadData s).length - 1 ∧
    (∀ j, j < i → (loadData (confirmDeletion rowBuilds s).2)[j]? = (loadData s)[j]?) ∧
    (∀ j, i ≤ j → (loadData (confirmDeletion rowBuilds s).2)[j]? = (loadData s)[j + 1]?) := by
  rw [loadData_confirmDeletion rowBuilds s i ht]
  refine ⟨List.length_eraseIdx_of_lt hi, ?_, ?_⟩
  · intro j hj
    exact List.getElem?_eraseIdx_of_lt _ _ _ hj
  · intro j hj
    exact List.getElem?_eraseIdx_of_ge _ _ _ hj

theorem confirmDeletion_spec_witness :
    (handleDeleteClick 0 (pageLoad sampleData)).deleteTargetIndex = some 0 ∧
    0 < (loadData (handleDeleteClick 0 (pageLoad sampleData))).length ∧
    (loadData (confirmDeletion allRowsBuild
      (handleDeleteClick 0 (pageLoad sampleData))).2).length = 3 - 1 ∧
    (loadData (confirmDeletion allRowsBuild
      (handleDeleteClick 0 (pageLoad sampleData))).2)[0]? = sampleData[1]? ∧
    (loadData (confirmDeletion allRowsBuild
      (handleDeleteClick 0 (pageLoad sampleData))).2)[1]? = sampleData[2]? :=
  ⟨rfl, by decide,
    (confirmDeletion_spec allRowsBuild (handleDeleteClick 0 (pageLoad sampleData)) 0 rfl
      (by decide)).1,
    (confirmDeletion_spec allRowsBuild (handleDeleteClick 0 (pageLoad sampleData)) 0 rfl
      (by decide)).2.2 0 (le_refl 0),
    (confirmDeletion_spec allRowsBuild (handleDeleteClick 0 (pageLoad sampleData)) 0 rfl
      (by decide)).2.2 1 (Nat.zero_le 1)⟩

theorem confirmEdit_of_none (rowBuilds : Entry → Bool) (t : State)
    (h : t.editTargetIndex = none) : confirmEdit rowBuilds t = (Outcome.done, t) := by
  unfold confirmEdit
  rw [h]

theorem confirmEdit_of_empty (rowBuilds : Entry → Bool) (t : State) (i : ℕ)
    (hi : t.editTargetIndex = some i) (hv : trim t.editInput = []) :
    confirmEdit rowBuilds t = (Outcome.alerted, t) := by
  unfold confirmEdit
  rw [hi]
  simp only [hv, if_true]

theorem confirmEdit_of_stale (rowBuilds : Entry → Bool) (t : State) (i : ℕ)
    (hi : t.editTargetIndex = some i) (hv : trim t.editInput ≠ [])
    (he : (loadData t)[i]? = none) : confirmEdit rowBuilds t = (Outcome.typeError, t) := by
  unfold confirmEdit
  rw [hi]
  simp only [hv, if_false, he]

theorem confirmEdit_of_valid (rowBuilds : Entry → Bool) (t : State) (i : ℕ) (e : Entry)
    (hi : t.editTargetIndex = some i) (hv : trim t.editInput ≠ [])
    (he : (loadData t)[i]? = some e) :
    confirmEdit rowBuilds t =
      if renderTable rowBuilds ((loadData t).set i { e with completed := trim t.editInput }) then
        (Outcome.done,
          { closeEditModal
              (saveData ((loadData t).set i { e with completed := trim t.editInput }) t) with
            editTargetIndex := none })
      else
        (Outcome.typeError,
          closeEditModal
            (saveData ((loadData t).set i { e with completed := trim t.editInput }) t)) := by
  unfold confirmEdit
  rw [hi]
  simp only [hv, if_false, he]

theorem loadData_confirmEdit (rowBuilds : Entry → Bool) (t : State) (i : ℕ) (e : Entry)
    (hi : t.editTargetIndex = some i) (hv : trim t.editInput ≠ [])
    (he : (loadData t)[i]? = some e) :
    loadData (confirmEdit rowBuilds t).2 =
      (loadData t).set i { e with completed := trim t.editInput } := by
  rw [confirmEdit_of_valid rowBuilds t i e hi hv he]
  split_ifs <;> rfl

/-- C7: with edit target `i` inside the stored list and input `v`, `confirmEdit` leaves the
storage untouched when `v` is empty after trimming; otherwise the stored list keeps its
length, entry `i` gets `completed` equal to the trimmed `v` with link, title and total
unchanged, and every other entry is unchanged.  With no edit target the storage is
untouched for every `v`. -/
theorem confirmEdit_spec (rowBuilds : Entry → Bool) (s : State) (v : Str) :
    (s.editTargetIndex = none →
      (confirmEdit rowBuilds (typeEdit v s)).2.storage = s.storage) ∧
    (∀ i, s.editTargetIndex = some i → i < (loadData s).length →
      (trim v = [] → (confirmEdit rowBuilds (typeEdit v s)).2.storage = s.storage) ∧
      (trim v ≠ [] →
        (loadData (confirmEdit rowBuilds (typeEdit v s)).2).length = (loadData s).length ∧
        (∀ e, (loadData s)[i]? = some e →
          (loadData (confirmEdit rowBuilds (typeEdit v s)).2)[i]? =
            some { link := e.link, title := e.title, total := e.total,
                   completed := trim v }) ∧
        (∀ j, j ≠ i →
          (loadData (confirmEdit rowBuilds (typeEdit v s)).2)[j]? = (loadData s)[j]?))) := by
  constructor
  · intro hnone
    rw [confirmEdit_of_none rowBuilds (typeEdit v s) hnone]
    rfl
  · intro i hi hlt
    have hget : (loadData s)[i]? = some ((loadData s)[i]) := List.getElem?_eq_getElem hlt
    constructor
    · intro hv
      rw [confirmEdit_of_empty rowBuilds (typeEdit v s) i hi hv]
      rfl
    · intro hv
      have hload : loadData (confirmEdit rowBuilds (typeEdit v s)).2 =
          (loadData s).set i { (loadData s)[i] with completed := trim v } :=
        loadData_confirmEdit rowBuilds (typeEdit v s) i _ hi hv hget
      rw [hload]
      refine ⟨List.length_set _ _ _, ?_, ?_⟩
      · intro e he
        rw [hget] at he
        injection he with he
        subst he
        simp [List.getElem?_set, hlt]
      · intro j hj
        exact List.getElem?_set_ne (Ne.symm hj)

theorem confirmEdit_spec_witness :
    (handleEditClick 1 (pageLoad sampleData)).2.editTargetIndex = some 1 ∧
    1 < (loadData (handleEditClick 1 (pageLoad sampleData)).2).length ∧
    trim " 7 ".toList ≠ [] ∧
    (loadData (confirmEdit allRowsBuild (typeEdit " 7 ".toList
      (handleEditClick 1 (pageLoad sampleData)).2)).2).length = 3 ∧
    (loadData (confirmEdit allRowsBuild (typeEdit " 7 ".toList
      (handleEditClick 1 (pageLoad sampleData)).2)).2)[1]? =
      some { link := entryHalf.link, title := entryHalf.title, total := entryHalf.total,
             completed := trim " 7 ".toList } :=
  ⟨rfl, by decide, by decide,
    (((confirmEdit_spec allRowsBuild (handleEditClick 1 (pageLoad sampleData)).2
      " 7 ".toList).2 1 rfl (by decide)).2 (by decide)).1,
    (((confirmEdit_spec allRowsBuild (handleEditClick 1 (pageLoad sampleData)).2
      " 7 ".toList).2 1 rfl (by decide)).2 (by decide)).2.1 entryHalf rfl⟩

/-! ## Pending targets: claims C9 and C10 -/

theorem handleAdd_frame (rowBuilds : Entry → Bool) (t : State) :
    (handleAdd rowBuilds t).2.deleteTargetIndex = t.deleteTargetIndex ∧
    (handleAdd rowBuilds t).2.editTargetIndex = t.editTargetIndex ∧
    (loadData t).length ≤ (loadData (handleAdd rowBuilds t).2).length := by
  unfold handleAdd
  dsimp only
  split_ifs
  · exact ⟨rfl, rfl, le_refl _⟩
  · exact ⟨rfl, rfl, le_refl _⟩
  · refine ⟨rfl, rfl, ?_⟩
    simp [saveData, loadData]
  · refine ⟨rfl, rfl, ?_⟩
    simp [saveData, loadData]

theorem confirmEdit_frame (rowBuilds : Entry → Bool) (t : State) :
    (confirmEdit rowBuilds t).2.deleteTargetIndex = t.deleteTargetIndex ∧
    ((confirmEdit rowBuilds t).2.editTargetIndex = t.editTargetIndex ∨
      (confirmEdit rowBuilds t).2.editTargetIndex = none) ∧
    (loadData (confirmEdit rowBuilds t).2).length = (loadData t).length := by
  cases hi : t.editTargetIndex with
  | none =>
    rw [confirmEdit_of_none rowBuilds t hi]
    exact ⟨rfl, Or.inl hi, rfl⟩
  | some i =>
    by_cases hv : trim t.editInput = []
    · rw [confirmEdit_of_empty rowBuilds t i hi hv]
      exact ⟨rfl, Or.inl hi, rfl⟩
    · cases he : (loadData t)[i]? with
      | none =>
        rw [confirmEdit_of_stale rowBuilds t i hi hv he]
        exact ⟨rfl, Or.inl hi, rfl⟩
      | some e =>
        rw [confirmEdit_of_valid rowBuilds t i e hi hv he]
        split_ifs
        · refine ⟨rfl, Or.inr rfl, ?_⟩
          simp [closeEditModal, saveData, loadData]
        · refine ⟨rfl, Or.inl hi, ?_⟩
          simp [closeEditModal, saveData, loadData]

theorem confirmEdit_done (rowBuilds : Entry → Bool) (t : State) (i : ℕ)
    (hi : t.editTargetIndex = some i) (hdone : (confirmEdit rowBuilds t).1 = Outcome.done) :
    (confirmEdit rowBuilds t).2.editTargetIndex = none := by
  by_cases hv : trim t.editInput = []
  · rw [confirmEdit_of_empty rowBuilds t i hi hv] at hdone
    exact Outcome.noConfusion hdone
  · cases he : (loadData t)[i]? with
    | none =>
      rw [confirmEdit_of_stale rowBuilds t i hi hv he] at hdone
      exact Outcome.noConfusion hdone
    | some e =>
      rw [confirmEdit_of_valid rowBuilds t i e hi hv he] at hdone ⊢
      by_cases hr : renderTable rowBuilds
          ((loadData t).set i { e with completed := trim t.editInput }) = true
      · rw [if_pos hr]
      · rw [if_neg hr] at hdone
        exact Outcome.noConfusion hdone

theorem confirmDeletion_done (rowBuilds : Entry → Bool) (t : State)
    (hdone : (confirmDeletion rowBuilds t).1 = Outcome.done) :
    (confirmDeletion rowBuilds t).2.deleteTargetIndex = none := by
  cases h : t.deleteTargetIndex with
  | none =>
    rw [confirmDeletion_of_none rowBuilds t h]
    exact h
  | some i =>
    rw [confirmDeletion_of_some rowBuilds t i h] at hdone ⊢
    by_cases hr : renderTable rowBuilds ((loadData t).eraseIdx i) = true
    · rw [if_pos hr]
    · rw [if_neg hr] at hdone
      exact Outcome.noConfusion hdone

theorem confirmDeletion_frame (rowBuilds : Entry → Bool) (t : State) :
    (confirmDeletion rowBuilds t).2.editTargetIndex = t.editTargetIndex := by
  cases h : t.deleteTargetIndex with
  | none => rw [confirmDeletion_of_none rowBuilds t h]
  | some i =>
    rw [confirmDeletion_of_some rowBuilds t i h]
    split_ifs <;> rfl

theorem handleEditClick_frame (t : State) (i : ℕ) (hlt : i < (loadData t).length) :
    (handleEditClick i t).2.deleteTargetIndex = t.deleteTargetIndex ∧
    (handleEditClick i t).2.editTargetIndex = some i ∧
    loadData (handleEditClick i t).2 = loadData t := by
  have hget : (loadData { t with editTargetIndex := some i })[i]? = some ((loadData t)[i]) :=
    List.getElem?_eq_getElem hlt
  unfold handleEditClick
  simp only [hget]
  trivial

theorem step_delete_valid (rowBuilds : Entry → Bool) (s : State) (op : Op)
    (hen : Enabled s op)
    (hdone : op = Op.confirmDelete → (stepOutcome rowBuilds s op).1 = Outcome.done)
    (hv : TargetValid s.deleteTargetIndex s) :
    TargetValid (step rowBuilds s op).deleteTargetIndex (step rowBuilds s op) := by
  cases op with
  | add link title total =>
    obtain ⟨hd, -, hl⟩ := handleAdd_frame rowBuilds (fillAddForm link title total s)
    intro i hi
    simp only [step, stepOutcome] at hi ⊢
    rw [hd] at hi
    exact lt_of_lt_of_le (hv i hi) hl
  | beginEdit k =>
    obtain ⟨hd, -, hl⟩ := handleEditClick_frame s k hen
    intro i hi
    simp only [step, stepOutcome] at hi ⊢
    rw [hd] at hi
    rw [hl]
    exact hv i hi
  | confirmEdit v =>
    obtain ⟨hd, -, hl⟩ := confirmEdit_frame rowBuilds (typeEdit v s)
    intro i hi
    simp only [step, stepOutcome] at hi ⊢
    rw [hd] at hi
    rw [hl]
    exact hv i hi
  | cancelEdit => exact hv
  | beginDelete k =>
    intro i hi
    simp only [step, stepOutcome, handleDeleteClick] at hi ⊢
    injection hi with hi
    subst hi
    exact hen
  | confirmDelete =>
    intro i hi
    simp only [step, stepOutcome] at hi
    rw [confirmDeletion_done rowBuilds s (hdone rfl)] at hi
    exact Option.noConfusion hi
  | cancelDelete => exact hv

theorem step_edit_valid (rowBuilds : Entry → Bool) (s : State) (op : Op) (hen : Enabled s op)
    (hop : op ≠ Op.confirmDelete) (hv : TargetValid s.editTargetIndex s) :
    TargetValid (step rowBuilds s op).editTargetIndex (step rowBuilds s op) := by
  cases op with
  | add link title total =>
    obtain ⟨-, he, hl⟩ := handleAdd_frame rowBuilds (fillAddForm link title total s)
    intro i hi
    simp only [step, stepOutcome] at hi ⊢
    rw [he] at hi
    exact lt_of_lt_of_le (hv i hi) hl
  | beginEdit k =>
    obtain ⟨-, he, hl⟩ := handleEditClick_frame s k hen
    intro i hi
    simp only [step, stepOutcome] at hi ⊢
    rw [he] at hi
    rw [hl]
    injection hi with hi
    subst hi
    exact hen
  | confirmEdit v =>
    obtain ⟨-, he, hl⟩ := confirmEdit_frame rowBuilds (typeEdit v s)
    intro i hi
    simp only [step, stepOutcome] at hi ⊢
    rw [hl]
    rcases he with he | he
    · rw [he] at hi
      exact hv i hi
    · rw [he] at hi
      exact Option.noConfusion hi
  | cancelEdit => exact hv
  | beginDelete k => exact hv
  | confirmDelete => exact absurd rfl hop
  | cancelDelete => exact hv

theorem deletesComplete_cons (rowBuilds : Entry → Bool) (s : State) (op : Op) (ops : List Op)
    (h : DeletesComplete rowBuilds s (op :: ops)) :
    (op = Op.confirmDelete → (stepOutcome rowBuilds s op).1 = Outcome.done) ∧
    DeletesComplete rowBuilds (step rowBuilds s op) ops := by
  cases op <;> simp_all [DeletesComplete]

theorem run_delete_valid (rowBuilds : Entry → Bool) (ops : List Op) :
    ∀ s : State, Admissible rowBuilds s ops → DeletesComplete rowBuilds s ops →
      TargetValid s.deleteTargetIndex s →
      TargetValid (run rowBuilds s ops).deleteTargetIndex (run rowBuilds s ops) := by
  induction ops with
  | nil =>
    intro s _ _ hd
    exact hd
  | cons op ops ih =>
    intro s hadm hdel hd
    obtain ⟨hen, hrest⟩ := hadm
    obtain ⟨hdone, hdrest⟩ := deletesComplete_cons rowBuilds s op ops hdel
    exact ih (step rowBuilds s op) hrest hdrest (step_delete_valid rowBuilds s op hen hdone hd)

theorem run_edit_valid (rowBuilds : Entry → Bool) (ops : List Op) :
    ∀ s : State, Admissible rowBuilds s ops → Op.confirmDelete ∉ ops →
      TargetValid s.editTargetIndex s →
      TargetValid (run rowBuilds s ops).editTargetIndex (run rowBuilds s ops) := by
  induction ops with
  | nil =>
    intro s _ _ he
    exact he
  | cons op ops ih =>
    intro s hadm hmem he
    obtain ⟨hen, hrest⟩ := hadm
    have hop : op ≠ Op.confirmDelete := fun h => hmem (by simp [h])
    have hmem1 : Op.confirmDelete ∉ ops := fun h => hmem (List.mem_cons_of_mem _ h)
    exact ih (step rowBuilds s op) hrest hmem1 (step_edit_valid rowBuilds s op hen hop he)

theorem admissible_append (rowBuilds : Entry → Bool) (pre post : List Op) :
    ∀ s : State, Admissible rowBuilds s (pre ++ post) →
      Admissible rowBuilds s pre ∧ Admissible rowBuilds (run rowBuilds s pre) post := by
  induction pre with
  | nil =>
    intro s h
    exact ⟨trivial, h⟩
  | cons op pre ih =>
    intro s h
    obtain ⟨hen, hrest⟩ := h
    obtain ⟨h1, h2⟩ := ih (step rowBuilds s op) hrest
    exact ⟨⟨hen, h1⟩, h2⟩

theorem run_append (rowBuilds : Entry → Bool) (s : State) (pre post : List Op) :
    run rowBuilds s (pre ++ post) = run rowBuilds (run rowBuilds s pre) post := by
  simp [run, List.foldl_append]

/-- C9, as stated, fails: a confirmed edit with an empty value keeps the edit target set;
both cancel transitions keep their target set; a confirm issued right after a cancelled
deletion still removes the entry; and where the row of the `textarea` entry does not build,
a confirmed deletion removes the entry but keeps the delete target set. -/
theorem cancel_keeps_target :
    (∀ rowBuilds : Entry → Bool,
      (confirmEdit rowBuilds (typeEdit "".toList
        (handleEditClick 0 (pageLoad sampleData)).2)).2.editTargetIndex = some 0) ∧
    (closeEditModal (handleEditClick 0 (pageLoad sampleData)).2).editTargetIndex = some 0 ∧
    (closeDeleteModal (handleDeleteClick 0 (pageLoad sampleData))).deleteTargetIndex = some 0 ∧
    (∀ rowBuilds : Entry → Bool,
      loadData (confirmDeletion rowBuilds
        (closeDeleteModal (handleDeleteClick 0 (pageLoad sampleData)))).2 =
        [entryHalf, entryFresh]) ∧
    loadData (closeDeleteModal (handleDeleteClick 0 (pageLoad sampleData))) =
      [entryDone, entryHalf, entryFresh] ∧
    (∀ rowBuilds : Entry → Bool, rowBuilds entryBroken = false →
      (confirmDeletion rowBuilds
        (handleDeleteClick 0 (pageLoad [entryDone, entryBroken]))).2.deleteTargetIndex =
        some 0 ∧
      loadData (confirmDeletion rowBuilds
        (handleDeleteClick 0 (pageLoad [entryDone, entryBroken]))).2 = [entryBroken]) := by
  refine ⟨?_, by decide, by decide, ?_, by decide, ?_⟩
  · intro rowBuilds
    rw [confirmEdit_of_empty rowBuilds _ 0 rfl (by decide)]
    rfl
  · intro rowBuilds
    rw [loadData_confirmDeletion rowBuilds _ 0 rfl]
    rfl
  · intro rowBuilds hbroken
    have hr : renderTable rowBuilds
        ((loadData (handleDeleteClick 0 (pageLoad [entryDone, entryBroken]))).eraseIdx 0) =
        false := by
      show renderTable rowBuilds [entryBroken] = false
      simp [renderTable, hbroken]
    rw [confirmDeletion_of_some rowBuilds _ 0 rfl, hr]
    exact ⟨rfl, rfl⟩

/-- C9, amended: a confirmed deletion that runs to its end (the table re-renders without
error) leaves the delete target unset, and so does a confirmed edit that runs to its end
for the edit target; both run to their end when every stored row builds, the edit needing a
valid target and a value that is non-empty after trimming.  An edit value that is empty
after trimming is rejected, leaving the edit target and the storage untouched; and both
cancel transitions leave the storage untouched. -/
theorem pending_transitions (rowBuilds : Entry → Bool) (s : State) (i : ℕ) (v : Str) :
    ((confirmDeletion rowBuilds s).1 = Outcome.done →
      (confirmDeletion rowBuilds s).2.deleteTargetIndex = none) ∧
    (s.editTargetIndex = some i →
      (confirmEdit rowBuilds (typeEdit v s)).1 = Outcome.done →
      (confirmEdit rowBuilds (typeEdit v s)).2.editTargetIndex = none) ∧
    ((∀ e, rowBuilds e = true) → (confirmDeletion rowBuilds s).1 = Outcome.done) ∧
    ((∀ e, rowBuilds e = true) → s.editTargetIndex = some i → i < (loadData s).length →
      trim v ≠ [] → (confirmEdit rowBuilds (typeEdit v s)).1 = Outcome.done) ∧
    (s.editTargetIndex = some i → trim v = [] →
      (confirmEdit rowBuilds (typeEdit v s)).2.editTargetIndex = some i ∧
      (confirmEdit rowBuilds (typeEdit v s)).2.storage = s.storage) ∧
    (closeEditModal s).storage = s.storage ∧
    (closeDeleteModal s).storage = s.storage := by
  have hrender : (∀ e, rowBuilds e = true) → ∀ data, renderTable rowBuilds data = true := by
    intro hall data
    unfold renderTable
    rw [List.all_eq_true]
    exact fun e _ => hall e
  refine ⟨confirmDeletion_done rowBuilds s, ?_, ?_, ?_, ?_, rfl, rfl⟩
  · intro hi hdone
    exact confirmEdit_done rowBuilds (typeEdit v s) i hi hdone
  · intro hall
    cases h : s.deleteTargetIndex with
    | none => rw [confirmDeletion_of_none rowBuilds s h]
    | some k =>
      rw [confirmDeletion_of_some rowBuilds s k h, if_pos (hrender hall _)]
  · intro hall hi hlt hv
    have hget : (loadData (typeEdit v s))[i]? = some ((loadData s)[i]) :=
      List.getElem?_eq_getElem hlt
    rw [confirmEdit_of_valid rowBuilds (typeEdit v s) i _ hi hv hget, if_pos (hrender hall _)]
  · intro hi hv
    rw [confirmEdit_of_empty rowBuilds (typeEdit v s) i hi hv]
    exact ⟨hi, rfl⟩

theorem pending_transitions_witness :
    (confirmDeletion allRowsBuild
      (handleDeleteClick 2 (pageLoad sampleData))).2.deleteTargetIndex = none ∧
    (confirmEdit allRowsBuild (typeEdit "3".toList
      (handleEditClick 2 (pageLoad sampleData)).2)).2.editTargetIndex = none ∧
    (confirmEdit allRowsBuild (typeEdit "  ".toList
      (handleEditClick 2 (pageLoad sampleData)).2)).2.editTargetIndex = some 2 :=
  ⟨(pending_transitions allRowsBuild (handleDeleteClick 2 (pageLoad sampleData)) 2 []).1
      ((pending_transitions allRowsBuild (handleDeleteClick 2 (pageLoad sampleData)) 2
        []).2.2.1 (fun _ => rfl)),
    (pending_transitions allRowsBuild (handleEditClick 2 (pageLoad sampleData)).2 2
      "3".toList).2.1 rfl
      ((pending_transitions allRowsBuild (handleEditClick 2 (pageLoad sampleData)).2 2
        "3".toList).2.2.2.1 (fun _ => rfl) rfl (by decide) (by decide)),
    ((pending_transitions allRowsBuild (handleEditClick 2 (pageLoad sampleData)).2 2
      "  ".toList).2.2.2.2.1 rfl (by decide)).1⟩

/-- C10, as stated, fails: from a one-entry list, begin edit at 0, cancel, begin delete at
0 and confirm reaches a state whose list is empty while the edit target is still 0; and
where the row of the `textarea` entry does not build, begin delete at 1 and confirm on a
two-entry list leaves one entry while the delete target is still 1. -/
theorem stale_edit_target :
    Initial (pageLoad [entryDone]) ∧
    (∀ rowBuilds : Entry → Bool,
      Admissible rowBuilds (pageLoad [entryDone])
        [Op.beginEdit 0, Op.cancelEdit, Op.beginDelete 0, Op.confirmDelete] ∧
      (run rowBuilds (pageLoad [entryDone])
        [Op.beginEdit 0, Op.cancelEdit, Op.beginDelete 0, Op.confirmDelete]).editTargetIndex
        = some 0 ∧
      loadData (run rowBuilds (pageLoad [entryDone])
        [Op.beginEdit 0, Op.cancelEdit, Op.beginDelete 0, Op.confirmDelete]) = [] ∧
      ¬ TargetValid
        (run rowBuilds (pageLoad [entryDone])
          [Op.beginEdit 0, Op.cancelEdit, Op.beginDelete 0, Op.confirmDelete]).editTargetIndex
        (run rowBuilds (pageLoad [entryDone])
          [Op.beginEdit 0, Op.cancelEdit, Op.beginDelete 0, Op.confirmDelete])) ∧
    Initial (pageLoad [entryBroken, entryDone]) ∧
    (∀ rowBuilds : Entry → Bool, rowBuilds entryBroken = false →
      Admissible rowBuilds (pageLoad [entryBroken, entryDone])
        [Op.beginDelete 1, Op.confirmDelete] ∧
      (run rowBuilds (pageLoad [entryBroken, entryDone])
        [Op.beginDelete 1, Op.confirmDelete]).deleteTargetIndex = some 1 ∧
      loadData (run rowBuilds (pageLoad [entryBroken, entryDone])
        [Op.beginDelete 1, Op.confirmDelete]) = [entryBroken]) := by
  refine ⟨⟨rfl, rfl⟩, ?_, ⟨rfl, rfl⟩, ?_⟩
  swap
  · intro rowBuilds hbroken
    have hr : renderTable rowBuilds
        ((loadData (handleDeleteClick 1 (pageLoad [entryBroken, entryDone]))).eraseIdx 1) =
        false := by
      show renderTable rowBuilds [entryBroken] = false
      simp [renderTable, hbroken]
    have hrun : run rowBuilds (pageLoad [entryBroken, entryDone])
        [Op.beginDelete 1, Op.confirmDelete] =
        (confirmDeletion rowBuilds
          (handleDeleteClick 1 (pageLoad [entryBroken, entryDone]))).2 := rfl
    rw [hrun, confirmDeletion_of_some rowBuilds _ 1 rfl, hr]
    refine ⟨⟨?_, trivial, trivial⟩, rfl, rfl⟩
    show 1 < ([entryBroken, entryDone] : List Entry).length
    decide
  intro rowBuilds
  have htarget : (run rowBuilds (pageLoad [entryDone])
      [Op.beginEdit 0, Op.cancelEdit, Op.beginDelete 0, Op.confirmDelete]).editTargetIndex
      = some 0 := rfl
  have hdata : loadData (run rowBuilds (pageLoad [entryDone])
      [Op.beginEdit 0, Op.cancelEdit, Op.beginDelete 0, Op.confirmDelete]) = [] := rfl
  refine ⟨?_, htarget, hdata, ?_⟩
  · refine ⟨?_, trivial, ?_, trivial, trivial⟩
    · show 0 < (loadData (pageLoad [entryDone])).length
      decide
    · show 0 < ([entryDone] : List Entry).length
      decide
  · intro hvalid
    have h := hvalid 0 htarget
    rw [hdata] at h
    exact Nat.lt_irrefl 0 h

/-- C10, amended: in every state reached from an initial state (both targets unset) by a
sequence of add, beginEdit(i), beginDelete(i) with `i` a valid index at that moment,
confirmEdit(v), cancelEdit, confirmDelete and cancelDelete: the delete target is unset or an
index of the current list, provided every confirmDelete of the sequence ran to its end (the
table re-rendered without error); and the edit target is unset or an index of the current
list, provided no confirmDelete was issued after the last beginEdit (or at all, when the
sequence has none before). -/
theorem targets_invariant (rowBuilds : Entry → Bool) (s : State) (ops : List Op)
    (hinit : Initial s) (hadm : Admissible rowBuilds s ops) :
    (DeletesComplete rowBuilds s ops →
      TargetValid (run rowBuilds s ops).deleteTargetIndex (run rowBuilds s ops)) ∧
    (∀ pre post : List Op, ops = pre ++ post → Op.confirmDelete ∉ post →
      (pre = [] ∨ ∃ pre1 i, pre = pre1 ++ [Op.beginEdit i]) →
      TargetValid (run rowBuilds s ops).editTargetIndex (run rowBuilds s ops)) := by
  have hd : TargetValid s.deleteTargetIndex s := by
    intro i hi
    rw [hinit.1] at hi
    exact Option.noConfusion hi
  have he : TargetValid s.editTargetIndex s := by
    intro i hi
    rw [hinit.2] at hi
    exact Option.noConfusion hi
  refine ⟨fun hdel => run_delete_valid rowBuilds ops s hadm hdel hd, ?_⟩
  intro pre post hops hmem hpre
  subst hops
  obtain ⟨hadm1, hadm2⟩ := admissible_append rowBuilds pre post s hadm
  rw [run_append]
  apply run_edit_valid rowBuilds post _ hadm2 hmem
  rcases hpre with hnil | ⟨pre1, i, hpre⟩
  · subst hnil
    exact he
  · subst hpre
    obtain ⟨-, hadm3⟩ := admissible_append rowBuilds pre1 [Op.beginEdit i] s hadm1
    have hen : i < (loadData (run rowBuilds s pre1)).length := hadm3.1
    rw [run_append]
    obtain ⟨-, htarget, hload⟩ := handleEditClick_frame (run rowBuilds s pre1) i hen
    intro j hj
    have hrun : run rowBuilds (run rowBuilds s pre1) [Op.beginEdit i] =
        (handleEditClick i (run rowBuilds s pre1)).2 := rfl
    rw [hrun] at hj ⊢
    rw [htarget] at hj
    rw [hload]
    injection hj with hj
    subst hj
    exact hen

theorem targets_invariant_witness :
    Initial (pageLoad sampleData) ∧
    TargetValid
      (run allRowsBuild (pageLoad sampleData)
        ([Op.beginDelete 0, Op.confirmDelete, Op.beginEdit 1] ++
          [Op.cancelEdit, Op.add "youtu.be/d".toList "D".toList "4".toList,
            Op.confirmEdit "".toList, Op.beginDelete 2, Op.cancelDelete])).deleteTargetIndex
      (run allRowsBuild (pageLoad sampleData)
        ([Op.beginDelete 0, Op.confirmDelete, Op.beginEdit 1] ++
          [Op.cancelEdit, Op.add "youtu.be/d".toList "D".toList "4".toList,
            Op.confirmEdit "".toList, Op.beginDelete 2, Op.cancelDelete])) ∧
    TargetValid
      (run allRowsBuild (pageLoad sampleData)
        ([Op.beginDelete 0, Op.confirmDelete, Op.beginEdit 1] ++
          [Op.cancelEdit, Op.add "youtu.be/d".toList "D".toList "4".toList,
            Op.confirmEdit "".toList, Op.beginDelete 2, Op.cancelDelete])).editTargetIndex
      (run allRowsBuild (pageLoad sampleData)
        ([Op.beginDelete 0, Op.confirmDelete, Op.beginEdit 1] ++
          [Op.cancelEdit, Op.add "youtu.be/d".toList "D".toList "4".toList,
            Op.confirmEdit "".toList, Op.beginDelete 2, Op.cancelDelete])) ∧
    (run allRowsBuild (pageLoad sampleData)
        ([Op.beginDelete 0, Op.confirmDelete, Op.beginEdit 1] ++
          [Op.cancelEdit, Op.add "youtu.be/d".toList "D".toList "4".toList,
            Op.confirmEdit "".toList, Op.beginDelete 2, Op.cancelDelete])).editTargetIndex
      = some 1 :=
  have hadm : Admissible allRowsBuild (pageLoad sampleData)
      ([Op.beginDelete 0, Op.confirmDelete, Op.beginEdit 1] ++
        [Op.cancelEdit, Op.add "youtu.be/d".toList "D".toList "4".toList,
          Op.confirmEdit "".toList, Op.beginDelete 2, Op.cancelDelete]) :=
    ⟨(by decide : 0 < (loadData (pageLoad sampleData)).length), trivial,
      (by decide : 1 < (loadData (run allRowsBuild (pageLoad sampleData)
        [Op.beginDelete 0, Op.confirmDelete])).length), trivial, trivial, trivial,
      (by decide : 2 < (loadData (run allRowsBuild (pageLoad sampleData)
        [Op.beginDelete 0, Op.confirmDelete, Op.beginEdit 1, Op.cancelEdit,
          Op.add "youtu.be/d".toList "D".toList "4".toList,
          Op.confirmEdit "".toList])).length), trivial, trivial⟩
  have hdel : DeletesComplete allRowsBuild (pageLoad sampleData)
      ([Op.beginDelete 0, Op.confirmDelete, Op.beginEdit 1] ++
        [Op.cancelEdit, Op.add "youtu.be/d".toList "D".toList "4".toList,
          Op.confirmEdit "".toList, Op.beginDelete 2, Op.cancelDelete]) :=
    ⟨rfl, trivial⟩
  ⟨⟨rfl, rfl⟩,
    (targets_invariant allRowsBuild (pageLoad sampleData) _ ⟨rfl, rfl⟩ hadm).1 hdel,
    (targets_invariant allRowsBuild (pageLoad sampleData) _ ⟨rfl, rfl⟩ hadm).2
      [Op.beginDelete 0, Op.confirmDelete, Op.beginEdit 1]
      [Op.cancelEdit, Op.add "youtu.be/d".toList "D".toList "4".toList,
        Op.confirmEdit "".toList, Op.beginDelete 2, Op.cancelDelete] rfl (by decide)
      (Or.inr ⟨[Op.beginDelete 0, Op.confirmDelete], 1, rfl⟩),
    by decide⟩

end WorkCalculator
